import Mathlib

/-!
Verification of the project-structure generator
(`app/python_utils/src/project_structure_generator.py`).

Python strings are modelled as `List Char` (`PyStr`); the filesystem is a
finite tree (`FSTree`); a missing pattern file is `Option.none`; a missing
or non-directory traversal root is `Option.none` / `FSTree.file`.  All
definitions are translated from the source; the single exception,
`specSingleSegMatch`, is marked as modelled from the specification text and
exists only to be compared with the source's matcher.
-/

/-- A Python string, as its list of Unicode code points. -/
abbrev PyStr := List Char

/-- Whitespace recognised by Python `str.strip()` (ASCII subset). -/
def pyIsSpace (c : Char) : Bool :=
  c == ' ' || c == '\t' || c == '\n' || c == '\r' || c.val == 11 || c.val == 12

/-- Python `str.strip()`: drop leading and trailing whitespace. -/
def pyStrip (s : PyStr) : PyStr :=
  ((s.dropWhile pyIsSpace).reverse.dropWhile pyIsSpace).reverse

/-- Python `str.strip(ch)`: drop leading and trailing copies of one character. -/
def pyStripChar (ch : Char) (s : PyStr) : PyStr :=
  ((s.dropWhile (· == ch)).reverse.dropWhile (· == ch)).reverse

/-- Python `str.rstrip(ch)`: drop trailing copies of one character. -/
def pyRstripChar (ch : Char) (s : PyStr) : PyStr :=
  (s.reverse.dropWhile (· == ch)).reverse

/-- Python `s.replace('\\', '/')` (single-character replace is a map). -/
def pyReplaceBackslash (s : PyStr) : PyStr :=
  s.map fun c => if c = '\\' then '/' else c

/-- POSIX `os.path.join` on two components. -/
def pyJoin (a b : PyStr) : PyStr :=
  if b.head? = some '/' then b
  else if a.isEmpty || (a.getLast? == some '/') then a ++ b
  else a ++ '/' :: b

/-- Python `str.split(sep)` for a one-character separator. -/
def pySplitChar (sep : Char) : PyStr → List PyStr
  | [] => [[]]
  | c :: cs =>
    if c = sep then [] :: pySplitChar sep cs
    else
      match pySplitChar sep cs with
      | [] => [[c]]
      | s :: ss => (c :: s) :: ss

/-- Python `str.split('/')`. -/
def pySplit (s : PyStr) : List PyStr := pySplitChar '/' s

/-- Python string `<=` (lexicographic on code points), as used by `list.sort()`. -/
def pyLe : PyStr → PyStr → Bool
  | [], _ => true
  | _ :: _, [] => false
  | a :: as, b :: bs => if a < b then true else if b < a then false else pyLe as bs

/-- The proposition form of `pyLe`. -/
def PyLE (a b : PyStr) : Prop := pyLe a b = true

instance : DecidableRel PyLE := fun a b => by unfold PyLE; infer_instance

/-- Python `fnmatch.fnmatch` on POSIX for patterns without bracket classes:
`*` matches any (possibly empty) sequence of characters including `/`,
`?` matches any single character including `/`, anything else is literal,
and the whole text must be consumed.  Bracket classes are a stated non-goal
of the specification and are not exercised by any pattern in scope. -/
def globMatch : PyStr → PyStr → Bool
  | [], s => s.isEmpty
  | p :: ps, s =>
    if p = '*' then s.tails.any fun t => globMatch ps t
    else if p = '?' then
      match s with
      | [] => false
      | _ :: cs => globMatch ps cs
    else
      match s with
      | [] => false
      | c :: cs => p == c && globMatch ps cs

/-- The suffixes of `s` reachable by deleting a prefix that contains no `/`. -/
def segTails : PyStr → List PyStr
  | [] => [[]]
  | c :: cs => (c :: cs) :: (if c = '/' then [] else segTails cs)

/-- Modelled from the spec: "single-segment wildcard semantics: `*` and `?`
match within a path segment the way shell globbing does, not across
separators".  This matcher exists only to be compared against the source's
`fnmatch`-based matcher `globMatch`; it is not part of the translated code. -/
def specSingleSegMatch : PyStr → PyStr → Bool
  | [], s => s.isEmpty
  | p :: ps, s =>
    if p = '*' then (segTails s).any fun t => specSingleSegMatch ps t
    else if p = '?' then
      match s with
      | [] => false
      | c :: cs => !(c == '/') && specSingleSegMatch ps cs
    else
      match s with
      | [] => false
      | c :: cs => p == c && specSingleSegMatch ps cs

/-- One pattern test of `ProjectStructure.is_ignored`: a pattern ending in `/`
matches the directory stem or anything under it; any other pattern is matched
against the whole candidate by `fnmatch`. -/
def matchesPattern (pattern path : PyStr) : Bool :=
  let p := pyReplaceBackslash pattern
  if p.getLast? = some '/' then
    globMatch (pyRstripChar '/' p ++ ['/', '*']) path || globMatch (pyRstripChar '/' p) path
  else
    globMatch p path

/-- `ProjectStructure.is_ignored`: the candidate path (backslashes normalised)
is tested against every pattern; any match excludes it. -/
def is_ignored (patterns : List PyStr) (path : PyStr) : Bool :=
  patterns.any fun pattern => matchesPattern pattern (pyReplaceBackslash path)

/-- The filtering loop of `ProjectStructure.read_gitignore_patterns`: keep each
line that, once stripped, is non-empty and does not start with `#`. -/
def keptPatternLines : List PyStr → List PyStr
  | [] => []
  | l :: ls =>
    let s := pyStrip l
    if s ≠ [] ∧ s.head? ≠ some '#' then s :: keptPatternLines ls
    else keptPatternLines ls

/-- `ProjectStructure.read_gitignore_patterns`: `none` models a missing or
unreadable pattern file (the `except` branches, which only log); `'.git'` is
appended unconditionally after the loop. -/
def read_gitignore_patterns : Option (List PyStr) → List PyStr
  | some ls => keptPatternLines ls ++ [".git".data]
  | none => [".git".data]

/-- A filesystem node: a file or a directory with children in `scandir` order. -/
inductive FSTree where
  | file : PyStr → FSTree
  | dir : PyStr → List FSTree → FSTree

/-- The entry name of a node. -/
def FSTree.name : FSTree → PyStr
  | .file n => n
  | .dir n _ => n

/-- Whether a node is a directory. -/
def FSTree.isDir : FSTree → Bool
  | .file _ => false
  | .dir _ _ => true

/-- The `for dirname in dirnames` loop of `get_project_structure`.  The body
calls `dirnames.remove(dirname)` for an ignored directory while iterating, so
Python's list iterator (which advances its index regardless) skips the next
element: that element is neither tested nor emitted, but it stays in
`dirnames` and `os.walk` will still descend into it.  The loop therefore maps
to: keep and emit a non-ignored head; for an ignored head, drop it and keep
the following element unexamined.  Returns (entries appended to `structure`
without their trailing slash, the final `dirnames` list). -/
def dirLoop (patterns : List PyStr) (relp : PyStr) : List PyStr → List PyStr × List PyStr
  | [] => ([], [])
  | d :: rest =>
    let full := pyReplaceBackslash (pyJoin relp d)
    if is_ignored patterns full then
      match rest with
      | [] => ([], [])
      | skipped :: rest2 =>
        let pr := dirLoop patterns relp rest2
        (pr.1, skipped :: pr.2)
    else
      let pr := dirLoop patterns relp rest
      (full :: pr.1, d :: pr.2)

mutual
/-- The traversal of `get_project_structure`, instrumented: the first component
is the accumulated `structure` list; the second is the list of directories
`os.walk` yields (i.e. lists), in order.  `os.walk` on a file path fails to
list it and yields nothing.  At a yielded directory whose relative path is
ignored the code clears `dirnames` and continues, so the directory is listed
but contributes nothing.  Recursion descends, in the post-loop `dirnames`
order, into the child of that name (`walkPList` resolves names exactly like
the filesystem does). -/
def walkP (patterns : List PyStr) (rel : PyStr) (t : FSTree) : List PyStr × List PyStr :=
  match t with
  | .file _ => ([], [])
  | .dir _ children =>
    if is_ignored patterns rel then ([], [rel])
    else
      let relp := if rel = ['.'] then [] else rel
      let dirNames := (children.filter FSTree.isDir).map FSTree.name
      let fileNames := (children.filter fun c => !c.isDir).map FSTree.name
      let pr := dirLoop patterns relp dirNames
      let fileEntries := fileNames.filterMap fun f =>
        let full := pyReplaceBackslash (pyJoin relp f)
        if is_ignored patterns full then none else some full
      let tbl := walkPList patterns relp children
      (pr.1.map (· ++ ['/']) ++ fileEntries ++
        (pr.2.map fun nm => ((tbl.lookup nm).getD ([], [])).1).flatten,
       rel :: (pr.2.map fun nm => ((tbl.lookup nm).getD ([], [])).2).flatten)
/-- The results of walking each child of a directory, keyed by entry name. -/
def walkPList (patterns : List PyStr) (relp : PyStr) :
    List FSTree → List (PyStr × (List PyStr × List PyStr))
  | [] => []
  | t :: ts =>
    (t.name, walkP patterns (pyReplaceBackslash (pyJoin relp t.name)) t) ::
      walkPList patterns relp ts
end

/-- `ProjectStructure.get_project_structure`: the flat entry list.  A missing
root or a root that is not a directory makes `os.walk` yield nothing (its
errors are ignored by default and the surrounding `except` only logs). -/
def get_project_structure (patterns : List PyStr) (root : Option FSTree) : List PyStr :=
  match root with
  | none => []
  | some t => (walkP patterns ['.'] t).1

/-- The directories `os.walk` yields (hence lists) during the same traversal. -/
def walkedDirs (patterns : List PyStr) (root : Option FSTree) : List PyStr :=
  match root with
  | none => []
  | some t => (walkP patterns ['.'] t).2

/-- The indentation unit of `add_path`. -/
def indentUnit : PyStr := "│   ".data

/-- The branch connector of `add_path`. -/
def branchGlyph : PyStr := "├── ".data

/-- The last-child connector of `add_path`. -/
def lastGlyph : PyStr := "└── ".data

/-- Python string repetition `s * n`. -/
def pyRepeat (s : PyStr) (n : Nat) : PyStr := (List.replicate n s).flatten

/-- One appended line of the renderer, tagged with the ancestor segments it
sits under and the rendered child name (directory names carry their `/`). -/
structure REvent where
  ancestor : List PyStr
  rname : PyStr
deriving DecidableEq

/-- The `for i, part in enumerate(parts)` loop of `ProjectStructure.add_path`,
instrumented with the `REvent` of each line it actually appends.  At the last
index the test `part == parts[-1]` is identically true, so the `└──` connector
is chosen exactly when `len(parts) == depth`; intermediate segment lines are
appended only if the identical line text is not already present. -/
def addPathGo (depth total : Nat) (allParts : List PyStr) :
    Nat → List PyStr → List PyStr → List PyStr × List REvent
  | _, F, [] => (F, [])
  | i, F, part :: rest =>
    let ind := pyRepeat indentUnit (depth + i - 1)
    if i = total - 1 then
      if part.getLast? = some '/' then
        let nm := pyStripChar '/' part ++ ['/']
        let pr := addPathGo depth total allParts (i + 1) (F ++ [ind ++ branchGlyph ++ nm]) rest
        (pr.1, ⟨allParts.take i, nm⟩ :: pr.2)
      else if total = depth then
        let pr := addPathGo depth total allParts (i + 1) (F ++ [ind ++ lastGlyph ++ part]) rest
        (pr.1, ⟨allParts.take i, part⟩ :: pr.2)
      else
        let pr := addPathGo depth total allParts (i + 1) (F ++ [ind ++ branchGlyph ++ part]) rest
        (pr.1, ⟨allParts.take i, part⟩ :: pr.2)
    else
      let line := ind ++ branchGlyph ++ part ++ ['/']
      if F.contains line then addPathGo depth total allParts (i + 1) F rest
      else
        let pr := addPathGo depth total allParts (i + 1) (F ++ [line]) rest
        (pr.1, ⟨allParts.take i, part ++ ['/']⟩ :: pr.2)

/-- The segments `parts = path.strip('/').split('/')` of `add_path`. -/
def addPathParts (path : PyStr) : List PyStr := pySplit (pyStripChar '/' path)

/-- `ProjectStructure.add_path` with its appended-line events. -/
def addPathFull (F : List PyStr) (path : PyStr) (depth : Nat) : List PyStr × List REvent :=
  let parts := addPathParts path
  addPathGo depth parts.length parts 0 F parts

/-- `ProjectStructure.add_path`: the formatted list after appending one path. -/
def add_path (F : List PyStr) (path : PyStr) (depth : Nat) : List PyStr :=
  (addPathFull F path depth).1

/-- The `for structure in filtered_structure: add_path(...)` loop of
`generate`, instrumented with all rendering events in emission order. -/
def renderLoop (F : List PyStr) : List PyStr → List PyStr × List REvent
  | [] => (F, [])
  | p :: ps =>
    let pr := addPathFull F p 1
    let rr := renderLoop pr.1 ps
    (rr.1, pr.2 ++ rr.2)

/-- All rendering events for a path list, starting from formatted lines `F`. -/
def renderEvents (F : List PyStr) (ps : List PyStr) : List REvent := (renderLoop F ps).2

/-- The `patterns_to_remove = ['*/']` filter of `generate`. -/
def removePatterns : List PyStr := ["*/".data]

/-- The list-comprehension filter of `generate`: drop entries matching `*/`. -/
def filteredEntries (l : List PyStr) : List PyStr :=
  l.filter fun s => !(removePatterns.any fun pat => globMatch pat s)

/-- `filtered_structure.sort()`: Python's stable ascending sort.  Any two
stable sorts under the same total preorder agree, so insertion sort computes
exactly `list.sort()`. -/
def sortedForRender (l : List PyStr) : List PyStr := List.insertionSort PyLE l

/-- The flat path list `generate` hands to the renderer. -/
def flatListForRender (gitignore : Option (List PyStr)) (root : Option FSTree) : List PyStr :=
  sortedForRender (filteredEntries (get_project_structure (read_gitignore_patterns gitignore) root))

/-- `root_folder = self.root_dir.split('\\')[-1] + '/'`. -/
def rootFolderName (root_dir : PyStr) : PyStr :=
  (pySplitChar '\\' root_dir).getLastD [] ++ ['/']

/-- The `formatted` list of `generate` after all `add_path` calls. -/
def renderedLines (gitignore : Option (List PyStr)) (root : Option FSTree)
    (root_dir : PyStr) : List PyStr :=
  (renderLoop [rootFolderName root_dir] (flatListForRender gitignore root)).1

/-- `ProjectStructure.generate`: the exact text written to the output file
(the write is always attempted; a failing write is only logged). -/
def generate (gitignore : Option (List PyStr)) (root : Option FSTree)
    (root_dir : PyStr) : PyStr :=
  List.intercalate ['\n'] (renderedLines gitignore root root_dir)

/-- A well-formed entry name: what a real directory listing can produce
(non-empty, not the self link, no separator and no backslash inside). -/
def validName (n : PyStr) : Prop :=
  n ≠ [] ∧ n ≠ ['.'] ∧ ∀ c ∈ n, c ≠ '/' ∧ c ≠ '\\'

instance (n : PyStr) : Decidable (validName n) := by unfold validName; infer_instance

mutual
/-- Well-formedness of a filesystem tree: every name is a `validName` and
sibling names are pairwise distinct, as on a real filesystem. -/
def wfTree : FSTree → Bool
  | .file n => decide (validName n)
  | .dir n cs => decide (validName n) && decide ((cs.map FSTree.name).Nodup) && wfList cs
/-- Well-formedness of a list of sibling subtrees. -/
def wfList : List FSTree → Bool
  | [] => true
  | t :: ts => wfTree t && wfList ts
end

/-- Well-formedness of an optional traversal root. -/
def wfRoot : Option FSTree → Bool
  | none => true
  | some t => wfTree t

theorem pyLe_refl (a : PyStr) : pyLe a a = true := by
  induction a with
  | nil => rfl
  | cons c cs ih => simp [pyLe, lt_irrefl, ih]

theorem pyLe_total (a b : PyStr) : pyLe a b = true ∨ pyLe b a = true := by
  induction a generalizing b with
  | nil => left; rfl
  | cons c cs ih =>
    cases b with
    | nil => right; rfl
    | cons d ds =>
      rcases lt_trichotomy c d with h | h | h
      · left; simp [pyLe, h]
      · subst h; simpa [pyLe, lt_irrefl] using ih ds
      · right; simp [pyLe, h]

theorem pyLe_trans {a b c : PyStr} (h1 : pyLe a b = true) (h2 : pyLe b c = true) :
    pyLe a c = true := by
  induction a generalizing b c with
  | nil => rfl
  | cons x xs ih =>
    cases b with
    | nil => simp [pyLe] at h1
    | cons y ys =>
      cases c with
      | nil => simp [pyLe] at h2
      | cons z zs =>
        rcases lt_trichotomy x y with hxy | hxy | hxy
        · rcases lt_trichotomy y z with hyz | hyz | hyz
          · simp [pyLe, lt_trans hxy hyz]
          · subst hyz; simp [pyLe, hxy]
          · simp [pyLe, hyz, lt_asymm hyz] at h2
        · subst hxy
          rcases lt_trichotomy x z with hyz | hyz | hyz
          · simp [pyLe, hyz]
          · subst hyz
            simp only [pyLe, lt_irrefl, if_false] at h1 h2 ⊢
            exact ih h1 h2
          · simp [pyLe, hyz, lt_asymm hyz] at h2
        · simp [pyLe, hxy, lt_asymm hxy] at h1

instance : IsTotal PyStr PyLE := ⟨pyLe_total⟩

instance : IsTrans PyStr PyLE := ⟨fun _ _ _ => pyLe_trans⟩

instance : IsRefl PyStr PyLE := ⟨pyLe_refl⟩

/-- Claim C1, counterexample: with patterns `a` and `b` and sibling directories
`a` and `b` (both excluded), removing `a` from `dirnames` during iteration
skips `b`, so the walker still descends into and lists the excluded directory
`b` — only the output stays clean.  This refutes "the TreeWalker does not
recurse into that directory" as stated. -/
theorem c1_walker_enters_excluded_dir :
    is_ignored (read_gitignore_patterns (some ["a".data, "b".data])) "b".data = true ∧
    "b".data ∈ walkedDirs (read_gitignore_patterns (some ["a".data, "b".data]))
      (some (.dir "r".data [.dir "a".data [], .dir "b".data [.file "f".data]])) ∧
    get_project_structure (read_gitignore_patterns (some ["a".data, "b".data]))
      (some (.dir "r".data [.dir "a".data [], .dir "b".data [.file "f".data]])) = [] := by
  decide

/-- Claim C2, counterexample: with no user patterns the loaded list is exactly
`['.git']`, and the filter does not exclude the candidate `.git/config`
(the bare pattern `.git` only matches the path `.git` itself), refuting
"the PathFilter excludes … every candidate of the form '.git/<anything>'". -/
theorem c2_filter_misses_git_subpaths :
    is_ignored (read_gitignore_patterns (some [])) ".git/config".data = false ∧
    is_ignored (read_gitignore_patterns (some [])) ".git".data = true := by
  decide

/-- Claim C3, counterexample: the plain pattern `a*b` excludes the candidate
`a/b` because `fnmatch`'s `*` matches across `/`, while under the claimed
single-segment semantics it would not match. -/
theorem c3_star_crosses_separator :
    is_ignored (read_gitignore_patterns (some ["a*b".data])) "a/b".data = true ∧
    specSingleSegMatch "a*b".data "a/b".data = false := by
  decide

/-- Claim C4, counterexample: with a missing traversal root, `os.walk` yields
nothing and every exception path only logs, so `generate` reports no failure
and still writes the synthetic root line to the output sink. -/
theorem c4_missing_root_still_writes :
    generate (some []) none "proj".data = "proj/".data ∧ "proj/".data ≠ ([] : PyStr) := by
  decide

/-- Claim C5, counterexample: with the plain pattern `d?` (which matches `d/`
but not `d`), the directory `d` is walked and emitted — so the filter was
evaluated on the separator-free form, not the trailing-separator form — and
the flat list handed to the renderer contains neither `d` nor `d/`: directory
entries are removed outright, not stripped of their separator. -/
theorem c5_filter_form_and_removal :
    is_ignored (read_gitignore_patterns (some ["d?".data])) "d/".data = true ∧
    is_ignored (read_gitignore_patterns (some ["d?".data])) "d".data = false ∧
    get_project_structure (read_gitignore_patterns (some ["d?".data]))
      (some (.dir "r".data [.dir "d".data [.file "f".data]])) = ["d/".data, "d/f".data] ∧
    flatListForRender (some ["d?".data])
      (some (.dir "r".data [.dir "d".data [.file "f".data]])) = ["d/f".data] := by
  decide

/-- Claim C6, counterexample: the walker returns entries in filesystem listing
order, without sorting: with children listed as `b.txt`, `a.txt` the returned
list is unsorted (sorting happens later, in `generate`). -/
theorem c6_walker_output_unsorted :
    get_project_structure (read_gitignore_patterns (some []))
      (some (.dir "r".data [.file "b.txt".data, .file "a.txt".data])) =
      ["b.txt".data, "a.txt".data] ∧
    pyLe "b.txt".data "a.txt".data = false := by
  decide

/-- Claim C8, counterexample: one render mixes both connector glyphs — the
single-segment path `a` gets `└── ` while deeper entries get `├── ` — so the
connector is not the same branch glyph for every entry. -/
theorem c8_mixed_connectors :
    renderedLines (some []) (some (.dir "r".data [.file "a".data, .dir "d".data [.file "c".data]]))
      "r".data =
      ["r/".data, lastGlyph ++ "a".data, branchGlyph ++ ("d".data ++ ['/']),
        indentUnit ++ branchGlyph ++ "c".data] ∧
    lastGlyph ≠ branchGlyph := by
  decide

theorem keptPatternLines_eq_filter (ls : List PyStr) :
    keptPatternLines ls =
      (ls.map pyStrip).filter fun l => decide (l ≠ [] ∧ l.head? ≠ some '#') := by
  induction ls with
  | nil => rfl
  | cons l ls ih =>
    by_cases h : pyStrip l ≠ [] ∧ (pyStrip l).head? ≠ some '#'
    · simp [keptPatternLines, List.filter, h, ih]
    · simp [keptPatternLines, List.filter, h, ih]

/-- Claim C9: pattern loading keeps exactly the lines that are non-empty and
not comments after trimming, in file order, appends the metadata pattern
`.git` last, and a missing or unreadable source behaves as zero lines. -/
theorem c9_pattern_loading (ls : List PyStr) :
    read_gitignore_patterns (some ls) =
      ((ls.map pyStrip).filter fun l => decide (l ≠ [] ∧ l.head? ≠ some '#')) ++ [".git".data] ∧
    read_gitignore_patterns none = [".git".data] := by
  exact ⟨by simp [read_gitignore_patterns, keptPatternLines_eq_filter], rfl⟩

/-- Claim C4 (amended): when the traversal root is missing or not a directory,
the error is absorbed (`os.walk` yields nothing, the handlers only log), the
walker returns the empty list, and `generate` still writes exactly the
synthetic root line derived from the root path. -/
theorem c4_fatal_root_absorbed (gitignore : Option (List PyStr)) (root : Option FSTree)
    (root_dir : PyStr) (h : root = none ∨ ∃ n, root = some (.file n)) :
    get_project_structure (read_gitignore_patterns gitignore) root = [] ∧
    generate gitignore root root_dir = rootFolderName root_dir := by
  have hempty : get_project_structure (read_gitignore_patterns gitignore) root = [] := by
    rcases h with h | ⟨n, h⟩ <;> subst h
    · rfl
    · simp [get_project_structure, walkP]
  refine ⟨hempty, ?_⟩
  simp [generate, renderedLines, flatListForRender, hempty, filteredEntries, sortedForRender,
    renderLoop, List.intercalate]

/-- Witness for `c4_fatal_root_absorbed` at a file root. -/
theorem c4_fatal_root_absorbed_witness :
    get_project_structure (read_gitignore_patterns none) (some (.file "x".data)) = [] ∧
    generate none (some (.file "x".data)) "a\\b".data = rootFolderName "a\\b".data :=
  c4_fatal_root_absorbed none (some (.file "x".data)) "a\\b".data (Or.inr ⟨"x".data, rfl⟩)

theorem segTails_mem_tails {s t : PyStr} (h : t ∈ segTails s) : t ∈ s.tails := by
  induction s with
  | nil =>
    simp [segTails] at h
    simp [h]
  | cons c cs ih =>
    simp only [segTails, List.mem_cons] at h
    rcases h with h | h
    · subst h; simp [List.mem_tails]
    · by_cases hc : c = '/'
      · simp [hc] at h
      · simp [hc] at h
        have := ih h
        rw [List.mem_tails] at this ⊢
        exact this.trans (List.suffix_cons c cs)

theorem specSingleSegMatch_imp_globMatch (ps : PyStr) :
    ∀ s, specSingleSegMatch ps s = true → globMatch ps s = true := by
  induction ps with
  | nil => intro s h; simpa [specSingleSegMatch, globMatch] using h
  | cons p ps ih =>
    intro s h
    by_cases hstar : p = '*'
    · simp only [specSingleSegMatch, hstar, if_true, List.any_eq_true] at h
      obtain ⟨t, ht, hmatch⟩ := h
      simp only [globMatch, hstar, if_true, List.any_eq_true]
      exact ⟨t, segTails_mem_tails ht, ih t hmatch⟩
    · by_cases hq : p = '?'
      · subst hq
        cases s with
        | nil => simp [specSingleSegMatch, hstar] at h
        | cons c cs =>
          have h1 : ¬ (('?' : Char) = '*') := by decide
          simp only [specSingleSegMatch, if_neg h1, if_pos rfl, if_true,
            eq_self_iff_true, Bool.and_eq_true] at h
          simp only [globMatch, if_neg h1, if_pos rfl, if_true, eq_self_iff_true]
          exact ih cs h.2
      · cases s with
        | nil => simp [specSingleSegMatch, hstar, hq] at h
        | cons c cs =>
          simp only [specSingleSegMatch, if_neg hstar, if_neg hq, Bool.and_eq_true] at h
          simp only [globMatch, if_neg hstar, if_neg hq, Bool.and_eq_true]
          exact ⟨h.1, ih cs h.2⟩

/-- Claim C3 (amended): a non-directory pattern excludes a candidate exactly
when the candidate matches it under full-string glob semantics in which `*`
and `?` may also match the path separator; in particular every single-segment
match still excludes the candidate, but not conversely. -/
theorem c3_plain_pattern_glob (pat path : PyStr)
    (h : (pyReplaceBackslash pat).getLast? ≠ some '/') :
    (is_ignored [pat] path = true ↔
      globMatch (pyReplaceBackslash pat) (pyReplaceBackslash path) = true) ∧
    (specSingleSegMatch (pyReplaceBackslash pat) (pyReplaceBackslash path) = true →
      is_ignored [pat] path = true) := by
  have hmain : is_ignored [pat] path = true ↔
      globMatch (pyReplaceBackslash pat) (pyReplaceBackslash path) = true := by
    simp [is_ignored, matchesPattern, h]
  exact ⟨hmain, fun hs => hmain.mpr (specSingleSegMatch_imp_globMatch _ _ hs)⟩

/-- Witness for `c3_plain_pattern_glob` at the pattern `a*b` and candidate `acb`. -/
theorem c3_plain_pattern_glob_witness :
    (is_ignored ["a*b".data] "acb".data = true ↔
      globMatch (pyReplaceBackslash "a*b".data) (pyReplaceBackslash "acb".data) = true) ∧
    (specSingleSegMatch (pyReplaceBackslash "a*b".data) (pyReplaceBackslash "acb".data) = true →
      is_ignored ["a*b".data] "acb".data = true) :=
  c3_plain_pattern_glob "a*b".data "acb".data (by decide)

theorem pyReplaceBackslash_eq_self {s : PyStr} (h : ∀ c ∈ s, c ≠ '\\') :
    pyReplaceBackslash s = s := by
  unfold pyReplaceBackslash
  induction s with
  | nil => rfl
  | cons c cs ih =>
    simp only [List.map_cons, List.cons.injEq]
    refine ⟨if_neg (h c (List.mem_cons_self c cs)), ih fun x hx => h x (List.mem_cons_of_mem c hx)⟩

theorem pyJoin_nil (b : PyStr) : pyJoin [] b = b := by
  unfold pyJoin
  split
  · rfl
  · simp

theorem pyJoin_eq_append {a : PyStr} (b : PyStr) (ha : a ≠ [])
    (hla : a.getLast? ≠ some '/') (hb : b.head? ≠ some '/') :
    pyJoin a b = a ++ '/' :: b := by
  unfold pyJoin
  rw [if_neg hb, if_neg]
  simp [ha, hla]

theorem mem_pyJoin {c : Char} {a b : PyStr} (h : c ∈ pyJoin a b) :
    c ∈ a ∨ c = '/' ∨ c ∈ b := by
  unfold pyJoin at h
  split at h
  · exact Or.inr (Or.inr h)
  · split at h
    · rcases List.mem_append.mp h with h | h
      · exact Or.inl h
      · exact Or.inr (Or.inr h)
    · rcases List.mem_append.mp h with h | h
      · exact Or.inl h
      · rcases List.mem_cons.mp h with h | h
        · exact Or.inr (Or.inl h)
        · exact Or.inr (Or.inr h)

theorem validName_head {n : PyStr} (h : validName n) : n.head? ≠ some '/' := by
  obtain ⟨hne, -, hall⟩ := h
  cases n with
  | nil => simp
  | cons c cs =>
    simp only [List.head?_cons, ne_eq, Option.some.injEq]
    exact (hall c (List.mem_cons_self c cs)).1

theorem validName_getLast {n : PyStr} (h : validName n) : n.getLast? ≠ some '/' := by
  obtain ⟨hne, -, hall⟩ := h
  intro hc
  exact (hall '/' (List.mem_of_mem_getLast? (by rw [hc]; rfl))).1 rfl

/-- A prefix of `pre ++ m` that ends in `/` cannot end inside the
separator-free block `m`: it is already a prefix of `pre`. -/
theorem slash_prefix_append (pre : PyStr) {p m : PyStr} (hm : ∀ c ∈ m, c ≠ '/')
    (h : (p ++ ['/']) <+: (pre ++ m)) : (p ++ ['/']) <+: pre := by
  rcases Nat.lt_or_ge pre.length (p.length + 1) with hlen | hlen
  · exfalso
    have hlt : p.length < (pre ++ m).length := by
      have := h.length_le
      simp only [List.length_append, List.length_cons] at this ⊢
      omega
    have hlt2 : p.length < (p ++ ['/']).length := by simp
    have hbm : p.length - pre.length < m.length := by
      simp only [List.length_append] at hlt
      omega
    have hget := h.getElem hlt2
    have hp : (p ++ ['/'])[p.length] = '/' := by simp
    have hm2 : (pre ++ m)[p.length] = m[p.length - pre.length] :=
      List.getElem_append_right (by omega)
    rw [hp, hm2] at hget
    exact hm '/' (hget ▸ List.getElem_mem _) rfl
  · exact List.prefix_of_prefix_length_le h (List.prefix_append pre m) (by simpa using hlen)

/-- A prefix of `pre ++ m ++ [/]` ending in `/`, with `m` separator-free,
is either a prefix of `pre` or the whole string. -/
theorem slash_prefix_append_slash (pre : PyStr) {p m : PyStr} (hm : ∀ c ∈ m, c ≠ '/')
    (h : (p ++ ['/']) <+: (pre ++ m ++ ['/'])) :
    (p ++ ['/']) <+: pre ∨ p = pre ++ m := by
  rcases Nat.lt_or_ge (p.length + 1) (pre ++ m ++ ['/']).length with hlen | hlen
  · left
    have hpref : (p ++ ['/']) <+: (pre ++ m) := by
      refine List.prefix_of_prefix_length_le h (List.prefix_append (pre ++ m) ['/']) ?_
      simp only [List.length_append, List.length_cons, List.length_nil] at hlen ⊢
      omega
    exact slash_prefix_append pre hm hpref
  · right
    have heq : p ++ ['/'] = pre ++ m ++ ['/'] := by
      refine h.eq_of_length ?_
      have := h.length_le
      simp only [List.length_append, List.length_cons, List.length_nil] at this hlen ⊢
      omega
    have := List.append_inj_left' heq (by simp)
    exact this

/-- Two separator-free blocks followed by `/` are prefix-comparable only when
equal. -/
theorem slash_block_eq {a b : PyStr} (hb : ∀ c ∈ b, c ≠ '/')
    (h : (a ++ ['/']) <+: (b ++ ['/'])) : a = b := by
  rcases slash_prefix_append_slash [] hb (by simpa using h) with h' | h'
  · simpa using h'.length_le
  · simpa using h'

/-- A string ending in `/` is no prefix of a separator-free block. -/
theorem slash_prefix_noslash {a b : PyStr} (hb : ∀ c ∈ b, c ≠ '/') :
    ¬ ((a ++ ['/']) <+: b) := by
  intro h
  have := slash_prefix_append [] hb (by simpa using h)
  simpa using this.length_le

theorem FSTree.recMem {P : FSTree → Prop} (hf : ∀ n, P (.file n))
    (hd : ∀ n cs, (∀ c ∈ cs, P c) → P (.dir n cs)) : ∀ t, P t
  | .file n => hf n
  | .dir n cs => hd n cs fun c hc =>
      have : sizeOf c < sizeOf (FSTree.dir n cs) := by
        have h1 : sizeOf c < sizeOf cs := List.sizeOf_lt_of_mem hc
        have h2 : sizeOf cs < sizeOf (FSTree.dir n cs) := by
          simp only [FSTree.dir.sizeOf_spec]
          omega
        omega
      FSTree.recMem hf hd c
termination_by t => sizeOf t

theorem wfList_mem {cs : List FSTree} {c : FSTree} (h : wfList cs = true) (hc : c ∈ cs) :
    wfTree c = true := by
  induction cs with
  | nil => cases hc
  | cons t ts ih =>
    simp only [wfList, Bool.and_eq_true] at h
    rcases List.mem_cons.mp hc with hc | hc
    · exact hc ▸ h.1
    · exact ih h.2 hc

theorem wfTree_dir {n : PyStr} {cs : List FSTree} (h : wfTree (.dir n cs) = true) :
    validName n ∧ (cs.map FSTree.name).Nodup ∧ wfList cs = true := by
  simp only [wfTree, Bool.and_eq_true, decide_eq_true_eq] at h
  exact ⟨h.1.1, h.1.2, h.2⟩

theorem wfTree_name {t : FSTree} (h : wfTree t = true) : validName t.name := by
  cases t with
  | file n => simpa [wfTree, FSTree.name] using h
  | dir n cs => exact (wfTree_dir h).1

theorem dirLoop_keep_sublist (ps : List PyStr) (relp : PyStr) (L : List PyStr) :
    (dirLoop ps relp L).2.Sublist L := by
  induction L using dirLoop.induct ps relp with
  | case1 => simp [dirLoop]
  | case2 d full hig =>
    simp only [dirLoop, if_pos hig]
    exact List.nil_sublist _
  | case3 d full hig skipped rest ih =>
    simp only [dirLoop, if_pos hig]
    exact (ih.cons₂ skipped).cons d
  | case4 d rest full hnig ih =>
    have hf : is_ignored ps full = false := by simpa using hnig
    rw [dirLoop.eq_def]
    simp only [hf, Bool.false_eq_true, if_false]
    exact ih.cons₂ d

theorem dirLoop_emit_spec (ps : List PyStr) (relp : PyStr) (L : List PyStr) :
    ∃ E : List PyStr, E.Sublist L ∧
      (dirLoop ps relp L).1 = E.map (fun d => pyReplaceBackslash (pyJoin relp d)) ∧
      ∀ d ∈ E, is_ignored ps (pyReplaceBackslash (pyJoin relp d)) = false := by
  induction L using dirLoop.induct ps relp with
  | case1 => exact ⟨[], by simp [dirLoop]⟩
  | case2 d full hig =>
    refine ⟨[], List.nil_sublist _, ?_, by simp⟩
    simp only [dirLoop, if_pos hig, List.map_nil]
  | case3 d full hig skipped rest ih =>
    obtain ⟨E, hsub, hemit, hclean⟩ := ih
    refine ⟨E, (hsub.cons skipped).cons d, ?_, hclean⟩
    simp only [dirLoop, if_pos hig]
    exact hemit
  | case4 d rest full hnig ih =>
    obtain ⟨E, hsub, hemit, hclean⟩ := ih
    refine ⟨d :: E, hsub.cons₂ d, ?_, ?_⟩
    · have hf : is_ignored ps full = false := by simpa using hnig
      rw [dirLoop.eq_def]
      simp only [hf, Bool.false_eq_true, if_false, List.map_cons, hemit]
    · intro x hx
      rcases List.mem_cons.mp hx with hx | hx
      · subst hx
        simpa using hnig
      · exact hclean x hx

theorem walkPList_lookup {ps : List PyStr} {relp nm : PyStr} {cs : List FSTree}
    {pr : List PyStr × List PyStr}
    (h : (walkPList ps relp cs).lookup nm = some pr) :
    ∃ c ∈ cs, c.name = nm ∧ pr = walkP ps (pyReplaceBackslash (pyJoin relp c.name)) c := by
  induction cs with
  | nil => simp [walkPList, List.lookup] at h
  | cons t ts ih =>
    rw [walkPList, List.lookup_cons] at h
    by_cases hb : nm = t.name
    · refine ⟨t, List.mem_cons_self t ts, hb.symm, ?_⟩
      rw [show (nm == t.name) = true from beq_iff_eq.mpr hb] at h
      have h' : some (walkP ps (pyReplaceBackslash (pyJoin relp t.name)) t) = some pr := h
      exact (Option.some.inj h').symm
    · rw [show (nm == t.name) = false from beq_eq_false_iff_ne.mpr hb] at h
      obtain ⟨c, hc, hcn, hcw⟩ := ih h
      exact ⟨c, List.mem_cons_of_mem t hc, hcn, hcw⟩

theorem filterMap_guard_eq {α β : Type} (g : α → β) (p : β → Bool) (l : List α) :
    (l.filterMap fun f => if p (g f) = true then none else some (g f)) =
      (l.filter fun f => !p (g f)).map g := by
  induction l with
  | nil => rfl
  | cons a l ih =>
    by_cases h : p (g a) = true
    · simp [List.filterMap_cons, List.filter_cons, h, ih]
    · simp [List.filterMap_cons, List.filter_cons, h, ih]

/-- Every boundary prefix of `r` (each ancestor of the relative path `r`,
including `r` itself) passes the filter. -/
def ancOK (ps : List PyStr) (r : PyStr) : Prop :=
  ∀ d : PyStr, (d ++ ['/']) <+: (r ++ ['/']) → is_ignored ps d = false

/-- Invariant satisfied by the relative path `os.walk` hands to each visited
directory: it is `.` at the root, otherwise a separator-joined chain of valid
names all of whose boundary prefixes pass the filter. -/
def RelInv (ps : List PyStr) (rel : PyStr) : Prop :=
  rel = ['.'] ∨
    (rel ≠ [] ∧ rel ≠ ['.'] ∧ rel.head? ≠ some '/' ∧ rel.getLast? ≠ some '/' ∧
      (∀ c ∈ rel, c ≠ '\\') ∧ ancOK ps rel)

/-- The same invariant for the prefix `rel_path` after the `'.' ↦ ''`
rewrite. -/
def RelpInv (ps : List PyStr) (relp : PyStr) : Prop :=
  relp = [] ∨
    (relp ≠ [] ∧ relp.head? ≠ some '/' ∧ relp.getLast? ≠ some '/' ∧
      (∀ c ∈ relp, c ≠ '\\') ∧ ancOK ps relp)

/-- A clean output entry: neither the entry itself (for files) nor any of its
boundary ancestors is excluded by the filter. -/
def CleanEntry (ps : List PyStr) (e : PyStr) : Prop :=
  ∀ d : PyStr, ((d ++ ['/']) <+: e ∨ (e = d ∧ e.getLast? ≠ some '/')) →
    is_ignored ps d = false

/-- Shape of an entry emitted while walking the directory at `rel`: it extends
`rel` by at least one further segment (at the root: it is non-empty and does
not start with the separator). -/
def AnchorOK (rel e : PyStr) : Prop :=
  if rel = ['.'] then e ≠ [] ∧ e.head? ≠ some '/'
  else (rel ++ ['/']) <+: e ∧ rel.length + 1 < e.length

/-- The normalised join of a visited prefix and an entry name. -/
def segJoin (relp m : PyStr) : PyStr := if relp = [] then m else relp ++ '/' :: m

/-- The entry-name segment of `e` immediately below the visited prefix. -/
def segAfter (relp e : PyStr) : PyStr :=
  (e.drop (if relp = [] then 0 else relp.length + 1)).takeWhile fun c => c != '/'

theorem segJoin_nil (m : PyStr) : segJoin [] m = m := by simp [segJoin]

theorem segAfter_nil (e : PyStr) : segAfter [] e = e.takeWhile fun c => c != '/' := by
  simp [segAfter]

theorem segAfter_ne {relp : PyStr} (h0 : relp ≠ []) (e : PyStr) :
    segAfter relp e = (e.drop (relp.length + 1)).takeWhile fun c => c != '/' := by
  simp [segAfter, h0]

theorem join_norm {ps : List PyStr} {relp m : PyStr} (hrelp : RelpInv ps relp)
    (hm : validName m) :
    pyReplaceBackslash (pyJoin relp m) = segJoin relp m := by
  have hmc : ∀ c ∈ m, c ≠ '/' ∧ c ≠ '\\' := hm.2.2
  by_cases h0 : relp = []
  · subst h0
    rw [pyJoin_nil, segJoin_nil]
    exact pyReplaceBackslash_eq_self fun c hc => (hmc c hc).2
  · rcases hrelp with h | ⟨-, -, hlast, hbs, -⟩
    · exact absurd h h0
    · rw [pyJoin_eq_append m h0 hlast (validName_head hm)]
      rw [segJoin, if_neg h0]
      refine pyReplaceBackslash_eq_self fun c hc => ?_
      rcases List.mem_append.mp hc with hc | hc
      · exact hbs c hc
      · rcases List.mem_cons.mp hc with hc | hc
        · subst hc; decide
        · exact (hmc c hc).2

theorem segJoin_as_append {relp : PyStr} (m : PyStr) (h0 : relp ≠ []) :
    segJoin relp m = (relp ++ ['/']) ++ m := by
  simp [segJoin, if_neg h0]

theorem takeWhile_noslash_self {f : PyStr} (hf : ∀ c ∈ f, c ≠ '/') :
    (f.takeWhile fun c => c != '/') = f := by
  induction f with
  | nil => rfl
  | cons c cs ih =>
    rw [List.takeWhile_cons, if_pos]
    · rw [ih fun x hx => hf x (List.mem_cons_of_mem c hx)]
    · simpa using hf c (List.mem_cons_self c cs)

theorem takeWhile_noslash_append {m rest : PyStr} (hm : ∀ c ∈ m, c ≠ '/') :
    ((m ++ '/' :: rest).takeWhile fun c => c != '/') = m := by
  induction m with
  | nil => simp [List.takeWhile_cons]
  | cons c cs ih =>
    rw [List.cons_append, List.takeWhile_cons, if_pos]
    · rw [ih fun x hx => hm x (List.mem_cons_of_mem c hx)]
    · simpa using hm c (List.mem_cons_self c cs)

theorem segAfter_dirEntry {relp m : PyStr} (hm : validName m) :
    segAfter relp (segJoin relp m ++ ['/']) = m := by
  obtain ⟨-, -, hmc⟩ := hm
  have hslash : m ++ ['/'] = m ++ '/' :: ([] : PyStr) := rfl
  by_cases h0 : relp = []
  · subst h0
    rw [segJoin_nil, segAfter_nil, hslash,
      takeWhile_noslash_append fun c hc => (hmc c hc).1]
  · rw [segJoin_as_append m h0, segAfter_ne h0, List.append_assoc]
    have hlen : relp.length + 1 = (relp ++ ['/']).length := by simp
    rw [hlen, List.drop_left, hslash,
      takeWhile_noslash_append fun c hc => (hmc c hc).1]

theorem segAfter_fileEntry {relp f : PyStr} (hf : validName f) :
    segAfter relp (segJoin relp f) = f := by
  obtain ⟨-, -, hfc⟩ := hf
  by_cases h0 : relp = []
  · subst h0
    rw [segJoin_nil, segAfter_nil]
    exact takeWhile_noslash_self fun c hc => (hfc c hc).1
  · rw [segJoin_as_append f h0, segAfter_ne h0]
    have hlen : relp.length + 1 = (relp ++ ['/']).length := by simp
    rw [hlen, List.drop_left]
    exact takeWhile_noslash_self fun c hc => (hfc c hc).1

theorem segAfter_sub {relp nm e : PyStr} (hnm : validName nm)
    (h : (segJoin relp nm ++ ['/']) <+: e) : segAfter relp e = nm := by
  obtain ⟨rest, hrest⟩ := h
  obtain ⟨-, -, hmc⟩ := hnm
  have hsh : ∀ x : PyStr, (x ++ ['/']) ++ rest = x ++ '/' :: rest := by
    intro x; simp
  by_cases h0 : relp = []
  · subst h0
    rw [segJoin_nil] at hrest
    rw [segAfter_nil, ← hrest, hsh nm,
      takeWhile_noslash_append fun c hc => (hmc c hc).1]
  · rw [segJoin_as_append nm h0] at hrest
    rw [segAfter_ne h0, ← hrest]
    have hlen : relp.length + 1 = (relp ++ ['/']).length := by simp
    rw [List.append_assoc, List.append_assoc, hlen, List.drop_left, ← List.append_assoc,
      hsh nm, takeWhile_noslash_append fun c hc => (hmc c hc).1]

theorem getLast?_append_of_ne_nil {a b : PyStr} (hb : b ≠ []) :
    (a ++ b).getLast? = b.getLast? := by
  rw [List.getLast?_append]
  cases hl : b.getLast? with
  | none => exact absurd (List.getLast?_eq_none_iff.mp hl) hb
  | some y => rfl

theorem head?_append_of_ne_nil {a : PyStr} (b : PyStr) (ha : a ≠ []) :
    (a ++ b).head? = a.head? := by
  cases a with
  | nil => exact absurd rfl ha
  | cons c cs => rfl

/-- Every boundary prefix of an entry name joined below a good prefix passes
the filter: inner boundaries lie in the prefix (covered by `ancOK`) and the
full join was tested directly. -/
theorem boundary_clean {ps : List PyStr} {relp m : PyStr} (hrelp : RelpInv ps relp)
    (hm : validName m) (hnig : is_ignored ps (segJoin relp m) = false) :
    ∀ d : PyStr, (d ++ ['/']) <+: (segJoin relp m ++ ['/']) → is_ignored ps d = false := by
  intro d hd
  have hmc : ∀ c ∈ m, c ≠ '/' := fun c hc => (hm.2.2 c hc).1
  by_cases h0 : relp = []
  · subst h0
    rw [segJoin_nil] at hd hnig
    rcases slash_prefix_append_slash [] hmc (by simpa using hd) with h | h
    · simpa using h.length_le
    · simpa [h] using hnig
  · rw [segJoin_as_append m h0] at hd
    rcases slash_prefix_append_slash (relp ++ ['/']) hmc hd with h | h
    · rcases hrelp with hrelp | ⟨-, -, -, -, hanc⟩
      · exact absurd hrelp h0
      · exact hanc d h
    · rw [h, ← segJoin_as_append m h0]
      exact hnig

theorem cleanEntry_dirEntry {ps : List PyStr} {relp m : PyStr} (hrelp : RelpInv ps relp)
    (hm : validName m) (hnig : is_ignored ps (segJoin relp m) = false) :
    CleanEntry ps (segJoin relp m ++ ['/']) := by
  intro d hd
  rcases hd with hd | ⟨-, hlast⟩
  · exact boundary_clean hrelp hm hnig d hd
  · exact absurd (List.getLast?_concat _) hlast

theorem cleanEntry_fileEntry {ps : List PyStr} {relp f : PyStr} (hrelp : RelpInv ps relp)
    (hf : validName f) (hnig : is_ignored ps (segJoin relp f) = false) :
    CleanEntry ps (segJoin relp f) := by
  intro d hd
  have hfc : ∀ c ∈ f, c ≠ '/' := fun c hc => (hf.2.2 c hc).1
  rcases hd with hd | ⟨he, -⟩
  · by_cases h0 : relp = []
    · subst h0
      rw [segJoin_nil] at hd
      exact absurd hd (slash_prefix_noslash hfc)
    · rw [segJoin_as_append f h0] at hd
      have h := slash_prefix_append (relp ++ ['/']) hfc hd
      rcases hrelp with hrelp | ⟨-, -, -, -, hanc⟩
      · exact absurd hrelp h0
      · exact hanc d h
  · rw [← he]
    exact hnig

theorem relInv_child {ps : List PyStr} {relp m : PyStr} (hrelp : RelpInv ps relp)
    (hm : validName m) (hnig : is_ignored ps (segJoin relp m) = false) :
    RelInv ps (segJoin relp m) ∧ segJoin relp m ≠ ['.'] := by
  obtain ⟨hm0, hmdot, hmc⟩ := hm
  have hanc : ancOK ps (segJoin relp m) :=
    fun d hd => boundary_clean hrelp ⟨hm0, hmdot, hmc⟩ hnig d hd
  by_cases h0 : relp = []
  · subst h0
    rw [segJoin_nil] at *
    refine ⟨Or.inr ⟨hm0, hmdot, validName_head ⟨hm0, hmdot, hmc⟩,
      validName_getLast ⟨hm0, hmdot, hmc⟩, fun c hc => (hmc c hc).2, hanc⟩, hmdot⟩
  · have hne : segJoin relp m ≠ [] := by
      rw [segJoin_as_append m h0]
      simp
    have hdot : segJoin relp m ≠ ['.'] := by
      rw [segJoin_as_append m h0]
      intro h
      have := congrArg List.length h
      simp only [List.length_append, List.length_cons, List.length_nil] at this
      have h1 : 1 ≤ relp.length := by
        cases relp with
        | nil => exact absurd rfl h0
        | cons a l => simp
      have h2 : 1 ≤ m.length := by
        cases m with
        | nil => exact absurd rfl hm0
        | cons a l => simp
      omega
    have hhead : (segJoin relp m).head? ≠ some '/' := by
      rw [segJoin_as_append m h0, List.append_assoc,
        head?_append_of_ne_nil _ h0]
      rcases hrelp with hrelp | ⟨-, hh, -, -, -⟩
      · exact absurd hrelp h0
      · exact hh
    have hlast : (segJoin relp m).getLast? ≠ some '/' := by
      rw [segJoin_as_append m h0, getLast?_append_of_ne_nil hm0]
      exact validName_getLast ⟨hm0, hmdot, hmc⟩
    have hbs : ∀ c ∈ segJoin relp m, c ≠ '\\' := by
      intro c hc
      rw [segJoin_as_append m h0] at hc
      rcases List.mem_append.mp hc with hc | hc
      · rcases List.mem_append.mp hc with hc | hc
        · rcases hrelp with hrelp | ⟨-, -, -, hb, -⟩
          · exact absurd hrelp h0
          · exact hb c hc
        · rcases List.mem_singleton.mp hc with rfl
          decide
      · exact (hmc c hc).2
    exact ⟨Or.inr ⟨hne, hdot, hhead, hlast, hbs, hanc⟩, hdot⟩

theorem segJoin_inj {relp m₁ m₂ : PyStr} (h : segJoin relp m₁ = segJoin relp m₂) :
    m₁ = m₂ := by
  by_cases h0 : relp = []
  · subst h0
    rwa [segJoin_nil, segJoin_nil] at h
  · rw [segJoin_as_append m₁ h0, segJoin_as_append m₂ h0] at h
    exact List.append_cancel_left h

theorem segJoin_getLast {relp f : PyStr} (hf : validName f) :
    (segJoin relp f).getLast? ≠ some '/' := by
  by_cases h0 : relp = []
  · rw [h0, segJoin_nil]
    exact validName_getLast hf
  · rw [segJoin_as_append f h0, getLast?_append_of_ne_nil hf.1]
    exact validName_getLast hf

theorem prefix_head?_eq {l₁ l₂ : PyStr} (h : l₁ <+: l₂) (hne : l₁ ≠ []) :
    l₂.head? = l₁.head? := by
  obtain ⟨t, rfl⟩ := h
  cases l₁ with
  | nil => exact absurd rfl hne
  | cons a l => rfl

theorem names_valid {cs : List FSTree} (hwfl : wfList cs = true) :
    ∀ m ∈ cs.map FSTree.name, validName m := by
  intro m hm
  obtain ⟨c, hc, rfl⟩ := List.mem_map.mp hm
  exact wfTree_name (wfList_mem hwfl hc)

theorem dir_file_names_disjoint {cs : List FSTree} (h : (cs.map FSTree.name).Nodup) :
    ∀ m ∈ (cs.filter FSTree.isDir).map FSTree.name,
      m ∉ (cs.filter fun c => !c.isDir).map FSTree.name := by
  intro m hm hm'
  obtain ⟨c₁, hc₁, hn₁⟩ := List.mem_map.mp hm
  obtain ⟨c₂, hc₂, hn₂⟩ := List.mem_map.mp hm'
  have hd₁ : c₁.isDir = true := (List.mem_filter.mp hc₁).2
  have hd₂ : c₂.isDir = false := by simpa using (List.mem_filter.mp hc₂).2
  have hne : c₁ ≠ c₂ := fun hcc => by rw [hcc, hd₂] at hd₁; cases hd₁
  have hp : List.Pairwise (fun a b : FSTree => ¬a.name = b.name) cs :=
    List.pairwise_map.mp h
  have hsym : Symmetric fun a b : FSTree => ¬a.name = b.name :=
    fun a b hab hba => hab hba.symm
  exact hp.forall hsym (List.mem_of_mem_filter hc₁) (List.mem_of_mem_filter hc₂) hne
    (hn₁.trans hn₂.symm)

/-- Master invariant of the walk: with a well-formed tree and a good relative
path, the accumulated entry list is duplicate-free and every entry is clean
(no excluded boundary ancestor) and anchored below the visited path. -/
theorem walk_master (ps : List PyStr) (t : FSTree) :
    ∀ rel : PyStr, wfTree t = true → RelInv ps rel →
      (walkP ps rel t).1.Nodup ∧
      ∀ e ∈ (walkP ps rel t).1, CleanEntry ps e ∧ AnchorOK rel e := by
  induction t using FSTree.recMem with
  | hf nn =>
    intro rel _ _
    refine ⟨by simp [walkP], ?_⟩
    intro e he
    simp [walkP] at he
  | hd nn cs ih =>
    intro rel hwf hrel
    obtain ⟨-, hnodupNames, hwfl⟩ := wfTree_dir hwf
    by_cases hig : is_ignored ps rel = true
    · refine ⟨?_, ?_⟩
      · rw [walkP.eq_def]; simp [hig]
      · intro e he; rw [walkP.eq_def] at he; simp [hig] at he
    · have hig' : is_ignored ps rel = false := by simpa using hig
      set relp := (if rel = ['.'] then ([] : PyStr) else rel) with hrelp_def
      have hrelp : RelpInv ps relp := by
        by_cases hdot : rel = ['.']
        · rw [hrelp_def, if_pos hdot]; exact Or.inl rfl
        · rw [hrelp_def, if_neg hdot]
          rcases hrel with h | ⟨h1, h2, h3, h4, h5, h6⟩
          · exact absurd h hdot
          · exact Or.inr ⟨h1, h3, h4, h5, h6⟩
      set dirNames := (cs.filter FSTree.isDir).map FSTree.name with hdn_def
      set fileNames := ((cs.filter fun c => !c.isDir).map FSTree.name) with hfn_def
      have hvalid : ∀ m ∈ cs.map FSTree.name, validName m := names_valid hwfl
      have hvalidD : ∀ m ∈ dirNames, validName m := fun m hm =>
        hvalid m (((List.filter_sublist cs).map FSTree.name).subset hm)
      have hvalidF : ∀ m ∈ fileNames, validName m := fun m hm =>
        hvalid m (((List.filter_sublist cs).map FSTree.name).subset hm)
      have hnodupD : dirNames.Nodup :=
        ((List.filter_sublist cs).map FSTree.name).nodup hnodupNames
      have hnodupF : fileNames.Nodup :=
        ((List.filter_sublist cs).map FSTree.name).nodup hnodupNames
      have hdisjDF : ∀ m ∈ dirNames, m ∉ fileNames := dir_file_names_disjoint hnodupNames
      obtain ⟨E, hEsub, hEmit, hEclean⟩ := dirLoop_emit_spec ps relp dirNames
      have hkeep := dirLoop_keep_sublist ps relp dirNames
      set keep := (dirLoop ps relp dirNames).2 with hkeep_def
      have hEmit' : (dirLoop ps relp dirNames).1 = E.map (segJoin relp) := by
        rw [hEmit]
        exact List.map_congr_left fun m hm =>
          join_norm hrelp (hvalidD m (hEsub.subset hm))
      have hEclean' : ∀ m ∈ E, is_ignored ps (segJoin relp m) = false := by
        intro m hm
        rw [← join_norm hrelp (hvalidD m (hEsub.subset hm))]
        exact hEclean m hm
      set pc := (fun nm => (((walkPList ps relp cs).lookup nm).getD ([], [])).1) with hpc_def
      have hpiece : ∀ nm ∈ keep, (pc nm).Nodup ∧ ∀ e ∈ pc nm,
          CleanEntry ps e ∧ (segJoin relp nm ++ ['/']) <+: e ∧
            (segJoin relp nm).length + 1 < e.length := by
        intro nm hnm
        have hnmD : nm ∈ dirNames := hkeep.subset hnm
        have hnmv : validName nm := hvalidD nm hnmD
        cases hlk : (walkPList ps relp cs).lookup nm with
        | none =>
          rw [hpc_def]
          simp only [hlk, Option.getD_none]
          exact ⟨List.nodup_nil, by intro e he; cases he⟩
        | some pr =>
          obtain ⟨c, hc, hcn, hpr⟩ := walkPList_lookup hlk
          have hRJ : pyReplaceBackslash (pyJoin relp c.name) = segJoin relp nm := by
            rw [hcn]; exact join_norm hrelp hnmv
          have hpcnm : pc nm = (walkP ps (segJoin relp nm) c).1 := by
            rw [hpc_def]
            simp only [hlk, Option.getD_some, hpr, hRJ]
          by_cases hig2 : is_ignored ps (segJoin relp nm) = true
          · have hempty : (walkP ps (segJoin relp nm) c).1 = [] := by
              cases c with
              | file m => simp [walkP]
              | dir m cs2 => rw [walkP.eq_def]; simp [hig2]
            rw [hpcnm, hempty]
            exact ⟨List.nodup_nil, by intro e he; cases he⟩
          · have hig2' : is_ignored ps (segJoin relp nm) = false := by simpa using hig2
            obtain ⟨hREL, hneD⟩ := relInv_child hrelp hnmv hig2'
            obtain ⟨hnd, hall⟩ := ih c hc (segJoin relp nm) (wfList_mem hwfl hc) hREL
            rw [hpcnm]
            refine ⟨hnd, ?_⟩
            intro e he
            obtain ⟨hce, hae⟩ := hall e he
            rw [AnchorOK, if_neg hneD] at hae
            exact ⟨hce, hae.1, hae.2⟩
      have hout1 : (walkP ps rel (.dir nn cs)).1 =
          E.map (fun m => segJoin relp m ++ ['/']) ++
          ((fileNames.filter fun f => !is_ignored ps (segJoin relp f)).map (segJoin relp) ++
          (keep.map pc).flatten) := by
        rw [walkP.eq_def]
        simp only [hig', Bool.false_eq_true, if_false]
        rw [← hrelp_def, ← hdn_def, ← hfn_def]
        have h1 : (dirLoop ps relp dirNames).1.map (· ++ ['/']) =
            E.map fun m => segJoin relp m ++ ['/'] := by
          rw [hEmit', List.map_map]
          rfl
        have h2 : (fileNames.filterMap fun f =>
            if is_ignored ps (pyReplaceBackslash (pyJoin relp f)) = true then none
            else some (pyReplaceBackslash (pyJoin relp f))) =
            (fileNames.filter fun f => !is_ignored ps (segJoin relp f)).map (segJoin relp) := by
          rw [filterMap_guard_eq (fun f => pyReplaceBackslash (pyJoin relp f))
            (fun x => is_ignored ps x) fileNames]
          have hfc : ∀ f ∈ fileNames,
              (!is_ignored ps (pyReplaceBackslash (pyJoin relp f))) =
                (!is_ignored ps (segJoin relp f)) := by
            intro f hf
            rw [join_norm hrelp (hvalidF f hf)]
          rw [List.filter_congr hfc]
          exact List.map_congr_left fun f hf =>
            join_norm hrelp (hvalidF f (List.mem_of_mem_filter hf))
        rw [h1, h2, List.append_assoc]
      refine ⟨?_, ?_⟩
      · rw [hout1, List.nodup_append]
        refine ⟨?_, ?_, ?_⟩
        · refine List.Nodup.map_on ?_ (hEsub.nodup hnodupD)
          intro m₁ h₁ m₂ h₂ heq
          exact segJoin_inj (List.append_cancel_right heq)
        · rw [List.nodup_append]
          refine ⟨?_, ?_, ?_⟩
          · refine List.Nodup.map_on ?_ (hnodupF.filter _)
            intro f₁ h₁ f₂ h₂ heq
            exact segJoin_inj heq
          · rw [List.nodup_flatten]
            constructor
            · intro l hl
              obtain ⟨nm, hnm, rfl⟩ := List.mem_map.mp hl
              exact (hpiece nm hnm).1
            · rw [List.pairwise_map]
              have hkN : keep.Nodup := hkeep.nodup hnodupD
              refine List.Pairwise.imp_of_mem ?_ hkN
              intro nm₁ nm₂ h₁ h₂ hne e he₁ he₂
              have f₁ := ((hpiece nm₁ h₁).2 e he₁).2.1
              have f₂ := ((hpiece nm₂ h₂).2 e he₂).2.1
              have s₁ := segAfter_sub (hvalidD nm₁ (hkeep.subset h₁)) f₁
              have s₂ := segAfter_sub (hvalidD nm₂ (hkeep.subset h₂)) f₂
              exact hne (s₁.symm.trans s₂)
          · intro e heB heC
            obtain ⟨f, hf, rfl⟩ := List.mem_map.mp heB
            obtain ⟨l, hl, hel⟩ := List.mem_flatten.mp heC
            obtain ⟨nm, hnm, rfl⟩ := List.mem_map.mp hl
            have hfF : f ∈ fileNames := List.mem_of_mem_filter hf
            have hp := ((hpiece nm hnm).2 _ hel).2.1
            have s₁ := @segAfter_fileEntry relp f (hvalidF f hfF)
            have s₂ := segAfter_sub (hvalidD nm (hkeep.subset hnm)) hp
            have hnf : nm = f := s₂.symm.trans s₁
            exact hdisjDF nm (hkeep.subset hnm) (hnf ▸ hfF)
        · intro e heA heBC
          obtain ⟨m, hmE, rfl⟩ := List.mem_map.mp heA
          rcases List.mem_append.mp heBC with heB | heC
          · obtain ⟨f, hf, heq⟩ := List.mem_map.mp heB
            have h1 := @segJoin_getLast relp f (hvalidF f (List.mem_of_mem_filter hf))
            rw [heq] at h1
            exact h1 (List.getLast?_concat _)
          · obtain ⟨l, hl, hel⟩ := List.mem_flatten.mp heC
            obtain ⟨nm, hnm, rfl⟩ := List.mem_map.mp hl
            have hp := (hpiece nm hnm).2 _ hel
            have s₂ := segAfter_sub (hvalidD nm (hkeep.subset hnm)) hp.2.1
            have s₁ := @segAfter_dirEntry relp m (hvalidD m (hEsub.subset hmE))
            have hmn : nm = m := s₂.symm.trans s₁
            have hlen := hp.2.2
            rw [hmn] at hlen
            simp at hlen
      · intro e he
        rw [hout1] at he
        rcases List.mem_append.mp he with heA | heBC
        · obtain ⟨m, hmE, rfl⟩ := List.mem_map.mp heA
          have hmv := hvalidD m (hEsub.subset hmE)
          refine ⟨cleanEntry_dirEntry hrelp hmv (hEclean' m hmE), ?_⟩
          simp only [AnchorOK]
          by_cases hdot : rel = ['.']
          · rw [if_pos hdot]
            have hrelpnil : relp = [] := by rw [hrelp_def, if_pos hdot]
            rw [hrelpnil, segJoin_nil]
            refine ⟨by simp, ?_⟩
            rw [head?_append_of_ne_nil _ hmv.1]
            exact validName_head hmv
          · rw [if_neg hdot]
            have hrelpe : relp = rel := by rw [hrelp_def, if_neg hdot]
            have h0 : relp ≠ [] := by
              rw [hrelpe]
              rcases hrel with h | ⟨h1, -⟩
              · exact absurd h hdot
              · exact h1
            rw [← hrelpe, segJoin_as_append m h0]
            refine ⟨(List.prefix_append _ _).trans (List.prefix_append _ _), ?_⟩
            simp [List.length_append]
        · rcases List.mem_append.mp heBC with heB | heC
          · obtain ⟨f, hff, rfl⟩ := List.mem_map.mp heB
            have hfv := hvalidF f (List.mem_of_mem_filter hff)
            have hnigf : is_ignored ps (segJoin relp f) = false := by
              have := (List.mem_filter.mp hff).2
              simpa using this
            refine ⟨cleanEntry_fileEntry hrelp hfv hnigf, ?_⟩
            simp only [AnchorOK]
            by_cases hdot : rel = ['.']
            · rw [if_pos hdot]
              have hrelpnil : relp = [] := by rw [hrelp_def, if_pos hdot]
              rw [hrelpnil, segJoin_nil]
              exact ⟨hfv.1, validName_head hfv⟩
            · rw [if_neg hdot]
              have hrelpe : relp = rel := by rw [hrelp_def, if_neg hdot]
              have h0 : relp ≠ [] := by
                rw [hrelpe]
                rcases hrel with h | ⟨h1, -⟩
                · exact absurd h hdot
                · exact h1
              rw [← hrelpe, segJoin_as_append f h0]
              refine ⟨List.prefix_append _ _, ?_⟩
              have hfl : 0 < f.length := by
                cases hff' : f with
                | nil => exact absurd hff' hfv.1
                | cons a l => simp [hff']
              simp only [List.length_append, List.length_cons, List.length_nil]
              omega
          · obtain ⟨l, hl, hel⟩ := List.mem_flatten.mp heC
            obtain ⟨nm, hnm, rfl⟩ := List.mem_map.mp hl
            obtain ⟨hce, hpre, hlen⟩ := (hpiece nm hnm).2 e hel
            refine ⟨hce, ?_⟩
            simp only [AnchorOK]
            have hnmv := hvalidD nm (hkeep.subset hnm)
            by_cases hdot : rel = ['.']
            · rw [if_pos hdot]
              have hrelpnil : relp = [] := by rw [hrelp_def, if_pos hdot]
              rw [hrelpnil, segJoin_nil] at hpre hlen
              refine ⟨?_, ?_⟩
              · intro h
                rw [h] at hlen
                simp at hlen
              · rw [prefix_head?_eq hpre (by simp), head?_append_of_ne_nil _ hnmv.1]
                exact validName_head hnmv
            · rw [if_neg hdot]
              have hrelpe : relp = rel := by rw [hrelp_def, if_neg hdot]
              have h0 : relp ≠ [] := by
                rw [hrelpe]
                rcases hrel with h | ⟨h1, -⟩
                · exact absurd h hdot
                · exact h1
              rw [← hrelpe]
              rw [segJoin_as_append nm h0] at hpre hlen
              refine ⟨?_, ?_⟩
              · exact ((List.prefix_append _ _).trans (List.prefix_append _ _)).trans hpre
              · simp only [List.length_append, List.length_cons, List.length_nil] at hlen ⊢
                omega

theorem structure_entry_inv (ps : List PyStr) (root : Option FSTree) (e : PyStr)
    (hwf : wfRoot root = true) (he : e ∈ get_project_structure ps root) :
    CleanEntry ps e ∧ AnchorOK ['.'] e := by
  cases root with
  | none => cases he
  | some t =>
    exact (walk_master ps t ['.'] (by simpa [wfRoot] using hwf) (Or.inl rfl)).2 e he

theorem structure_nodup (ps : List PyStr) (root : Option FSTree)
    (hwf : wfRoot root = true) : (get_project_structure ps root).Nodup := by
  cases root with
  | none => exact List.nodup_nil
  | some t =>
    exact (walk_master ps t ['.'] (by simpa [wfRoot] using hwf) (Or.inl rfl)).1

/-- No excluded directory or descendant of one ever shows up in the walker
output. -/
theorem excluded_dir_not_in_output (ps : List PyStr) (root : Option FSTree)
    (d e : PyStr) (hwf : wfRoot root = true) (hd : is_ignored ps d = true)
    (hds : d.getLast? ≠ some '/') (he : e ∈ get_project_structure ps root) :
    e ≠ d ∧ ¬((d ++ ['/']) <+: e) := by
  have hclean := (structure_entry_inv ps root e hwf he).1
  constructor
  · intro hcontra
    have := hclean d (Or.inr ⟨hcontra, by rw [hcontra]; exact hds⟩)
    rw [this] at hd
    cases hd
  · intro hpre
    have := hclean d (Or.inl hpre)
    rw [this] at hd
    cases hd

/-- Claim C1 (amended): on a well-formed filesystem, whenever a directory's
relative path is excluded by the filter, neither that directory nor any of
its descendants ever appears in the walker's output; the walker also does not
descend into it, except that an excluded directory skipped by the
remove-during-iteration defect is entered and listed once, pruned
immediately, and still contributes nothing. -/
theorem c1_excluded_subtree_absent (ps : List PyStr) (root : Option FSTree)
    (d e : PyStr) (hwf : wfRoot root = true) (hd : is_ignored ps d = true)
    (hds : d.getLast? ≠ some '/') (he : e ∈ get_project_structure ps root) :
    e ≠ d ∧ ¬((d ++ ['/']) <+: e) :=
  excluded_dir_not_in_output ps root d e hwf hd hds he

/-- Witness for `c1_excluded_subtree_absent`. -/
theorem c1_excluded_subtree_absent_witness :
    "a".data ≠ "b".data ∧ ¬(("b".data ++ ['/']) <+: "a".data) :=
  c1_excluded_subtree_absent ["b".data]
    (some (.dir "r".data [.dir "b".data [.file "x".data], .file "a".data]))
    "b".data "a".data (by decide) (by decide) (by decide) (by decide)

/-- Claim C2 (amended): the loaded pattern list always contains the
metadata-directory pattern `.git` and the filter always excludes the path
`.git` itself, regardless of user-supplied patterns; candidates strictly
below `.git` are not themselves matched by the implicit pattern, but on a
well-formed filesystem neither the top-level `.git` directory nor anything
beneath it ever appears in the walker's output, because the directory is
pruned. -/
theorem c2_metadata_dir_pruned (src : Option (List PyStr)) (root : Option FSTree)
    (e : PyStr) (hwf : wfRoot root = true)
    (he : e ∈ get_project_structure (read_gitignore_patterns src) root) :
    ".git".data ∈ read_gitignore_patterns src ∧
    is_ignored (read_gitignore_patterns src) ".git".data = true ∧
    e ≠ ".git".data ∧ ¬((".git/".data) <+: e) := by
  have hmem : ".git".data ∈ read_gitignore_patterns src := by
    cases src with
    | none => simp [read_gitignore_patterns]
    | some ls => simp [read_gitignore_patterns]
  have hign : is_ignored (read_gitignore_patterns src) ".git".data = true := by
    rw [is_ignored, List.any_eq_true]
    exact ⟨".git".data, hmem, by decide⟩
  have habs := excluded_dir_not_in_output (read_gitignore_patterns src) root
    ".git".data e hwf hign (by decide) he
  refine ⟨hmem, hign, habs.1, ?_⟩
  have hgit : ".git/".data = ".git".data ++ ['/'] := by decide
  rw [hgit]
  exact habs.2

/-- Witness for `c2_metadata_dir_pruned`. -/
theorem c2_metadata_dir_pruned_witness :
    ".git".data ∈ read_gitignore_patterns none ∧
    is_ignored (read_gitignore_patterns none) ".git".data = true ∧
    "a.txt".data ≠ ".git".data ∧ ¬((".git/".data) <+: "a.txt".data) :=
  c2_metadata_dir_pruned none
    (some (.dir "r".data [.dir ".git".data [.file "config".data], .file "a.txt".data]))
    "a.txt".data (by decide) (by decide)

theorem globMatch_single_slash (t : PyStr) : (globMatch ['/'] t = true) ↔ t = ['/'] := by
  constructor
  · intro h
    cases t with
    | nil => simp [globMatch] at h
    | cons c cs =>
      have h1 : (('/' : Char) == c && cs.isEmpty) = true := by
        simpa [globMatch] using h
      obtain ⟨h2, h3⟩ := (Bool.and_eq_true _ _).mp h1
      have hc : c = '/' := (beq_iff_eq.mp h2).symm
      rw [List.isEmpty_iff.mp h3, hc]
  · rintro rfl
    decide

theorem suffix_slash_iff (s : PyStr) :
    (∃ t ∈ s.tails, t = ['/']) ↔ s.getLast? = some '/' := by
  constructor
  · rintro ⟨t, ht, rfl⟩
    obtain ⟨pre, rfl⟩ := (List.mem_tails _ _).mp ht
    exact List.getLast?_concat pre
  · intro h
    have hne : s ≠ [] := by
      intro hc
      rw [hc] at h
      cases h
    refine ⟨['/'], (List.mem_tails _ _).mpr ⟨s.dropLast, ?_⟩, rfl⟩
    have hd := List.dropLast_append_getLast hne
    have hv : s.getLast hne = '/' := by
      have := List.getLast?_eq_getLast s hne
      rw [this] at h
      exact Option.some.inj h
    rw [hv] at hd
    exact hd

theorem glob_star_slash (s : PyStr) :
    (globMatch "*/".data s = true) ↔ s.getLast? = some '/' := by
  have h1 : "*/".data = '*' :: ['/'] := by decide
  rw [h1]
  have h2 : globMatch ('*' :: ['/']) s = s.tails.any fun t => globMatch ['/'] t := by
    simp [globMatch]
  rw [h2, List.any_eq_true]
  constructor
  · rintro ⟨t, ht, hm⟩
    exact (suffix_slash_iff s).mp ⟨t, ht, (globMatch_single_slash t).mp hm⟩
  · intro h
    obtain ⟨t, ht, rfl⟩ := (suffix_slash_iff s).mpr h
    exact ⟨['/'], ht, (globMatch_single_slash _).mpr rfl⟩

theorem filteredEntries_no_slash (l : List PyStr) (x : PyStr)
    (hx : x ∈ filteredEntries l) : x.getLast? ≠ some '/' := by
  have hp := (List.mem_filter.mp hx).2
  simp only [removePatterns, List.any_cons, List.any_nil, Bool.or_false, Bool.not_eq_true'] at hp
  intro hc
  rw [(glob_star_slash x).mpr hc] at hp
  cases hp

theorem mem_flatListForRender {src : Option (List PyStr)} {root : Option FSTree} {x : PyStr} :
    x ∈ flatListForRender src root ↔
      x ∈ filteredEntries (get_project_structure (read_gitignore_patterns src) root) := by
  rw [flatListForRender, sortedForRender]
  exact (List.perm_insertionSort PyLE _).mem_iff

/-- Claim C5 (amended): the walker tests a directory on its separator-free
relative path and stores the entry with a trailing separator; the flat list
handed to the renderer contains no entry ending in the separator at all —
`generate` removes every directory entry rather than stripping it. -/
theorem c5_dir_checked_bare_removed_for_render (src : Option (List PyStr))
    (root : Option FSTree) (e x : PyStr) (hwf : wfRoot root = true)
    (he : e ∈ get_project_structure (read_gitignore_patterns src) root)
    (hslash : e.getLast? = some '/') (hx : x ∈ flatListForRender src root) :
    e.dropLast ++ ['/'] = e ∧
    is_ignored (read_gitignore_patterns src) e.dropLast = false ∧
    x.getLast? ≠ some '/' ∧ e ∉ flatListForRender src root := by
  have hne : e ≠ [] := by
    intro hc
    rw [hc] at hslash
    cases hslash
  have hdl : e.dropLast ++ ['/'] = e := by
    have hd := List.dropLast_append_getLast hne
    have hv : e.getLast hne = '/' := by
      have := List.getLast?_eq_getLast e hne
      rw [this] at hslash
      exact Option.some.inj hslash
    rw [hv] at hd
    exact hd
  have hclean := (structure_entry_inv _ root e hwf he).1
  refine ⟨hdl, hclean e.dropLast (Or.inl (by rw [hdl])), ?_, ?_⟩
  · exact filteredEntries_no_slash _ x (mem_flatListForRender.mp hx)
  · intro hc
    exact filteredEntries_no_slash _ e (mem_flatListForRender.mp hc) hslash

/-- Witness for `c5_dir_checked_bare_removed_for_render`. -/
theorem c5_dir_checked_bare_removed_for_render_witness :
    ("d/".data : PyStr).dropLast ++ ['/'] = "d/".data ∧
    is_ignored (read_gitignore_patterns (some [])) ("d/".data : PyStr).dropLast = false ∧
    ("d/f".data : PyStr).getLast? ≠ some '/' ∧
    "d/".data ∉ flatListForRender (some [])
      (some (.dir "r".data [.dir "d".data [.file "f".data]])) :=
  c5_dir_checked_bare_removed_for_render (some [])
    (some (.dir "r".data [.dir "d".data [.file "f".data]]))
    "d/".data "d/f".data (by decide) (by decide) (by decide) (by decide)

/-- Claim C6 (amended): on a well-formed filesystem the flat path list passed
to the renderer is lexicographically sorted and free of duplicates; the
sorting happens in `generate` (the walker itself returns entries in
filesystem order). -/
theorem c6_render_list_sorted_nodup (src : Option (List PyStr)) (root : Option FSTree)
    (hwf : wfRoot root = true) :
    List.Pairwise PyLE (flatListForRender src root) ∧
    (flatListForRender src root).Nodup := by
  constructor
  · rw [flatListForRender, sortedForRender]
    exact List.sorted_insertionSort PyLE _
  · rw [flatListForRender, sortedForRender]
    refine ((List.perm_insertionSort PyLE _).nodup_iff).mpr ?_
    exact (structure_nodup _ root hwf).filter _

/-- Witness for `c6_render_list_sorted_nodup`. -/
theorem c6_render_list_sorted_nodup_witness :
    List.Pairwise PyLE (flatListForRender (some [])
      (some (.dir "r".data [.file "b.txt".data, .file "a.txt".data]))) ∧
    (flatListForRender (some [])
      (some (.dir "r".data [.file "b.txt".data, .file "a.txt".data]))).Nodup :=
  c6_render_list_sorted_nodup (some [])
    (some (.dir "r".data [.file "b.txt".data, .file "a.txt".data])) (by decide)

/-- The text of the line `add_path` appends for segment `i` of `parts`. -/
def lineFor (depth : Nat) (parts : List PyStr) (i : Nat) : PyStr :=
  let part := parts.getD i []
  pyRepeat indentUnit (depth + i - 1) ++
    (if i = parts.length - 1 then
      (if part.getLast? = some '/' then branchGlyph ++ (pyStripChar '/' part ++ ['/'])
       else if parts.length = depth then lastGlyph ++ part
       else branchGlyph ++ part)
     else branchGlyph ++ (part ++ ['/']))

theorem getD_of_drop {parts : List PyStr} {i : Nat} {part : PyStr} {rest : List PyStr}
    (h : parts.drop i = part :: rest) : parts.getD i [] = part := by
  have h1 := List.getElem?_drop parts i 0
  rw [h] at h1
  simp only [List.getElem?_cons_zero, Nat.add_zero] at h1
  rw [List.getD_eq_getElem?_getD, ← h1]
  rfl

theorem lt_of_drop {parts : List PyStr} {i : Nat} {part : PyStr} {rest : List PyStr}
    (h : parts.drop i = part :: rest) : i < parts.length := by
  by_contra hc
  rw [List.drop_eq_nil_iff.mpr (by omega)] at h
  cases h

theorem addPathGo_lines (depth : Nat) (parts : List PyStr) :
    ∀ (rest : List PyStr) (i : Nat) (F : List PyStr),
      rest = parts.drop i →
      ∀ l ∈ (addPathGo depth parts.length parts i F rest).1,
        l ∈ F ∨ ∃ j, i ≤ j ∧ j < parts.length ∧ l = lineFor depth parts j := by
  intro rest
  induction rest with
  | nil =>
    intro i F _ l hl
    exact Or.inl hl
  | cons part rest2 ih =>
    intro i F hdrop l hl
    have hget : parts.getD i [] = part := getD_of_drop hdrop.symm
    have hlt : i < parts.length := lt_of_drop hdrop.symm
    have hdrop2 : rest2 = parts.drop (i + 1) := by
      rw [← List.tail_drop, ← hdrop]
      rfl
    have hstep : ∀ (F' : List PyStr),
        l ∈ (addPathGo depth parts.length parts (i + 1) F' rest2).1 →
        l ∈ F' ∨ ∃ j, i ≤ j ∧ j < parts.length ∧ l = lineFor depth parts j := by
      intro F' hl'
      rcases ih (i + 1) F' hdrop2 l hl' with h | ⟨j, hj1, hj2, hj3⟩
      · exact Or.inl h
      · exact Or.inr ⟨j, by omega, hj2, hj3⟩
    rw [addPathGo] at hl
    by_cases hlast : i = parts.length - 1
    · rw [if_pos hlast] at hl
      by_cases hsl : part.getLast? = some '/'
      · rw [if_pos hsl] at hl
        rcases hstep _ hl with h | h
        · rcases List.mem_append.mp h with h | h
          · exact Or.inl h
          · refine Or.inr ⟨i, le_refl i, hlt, ?_⟩
            rw [List.mem_singleton.mp h, lineFor]
            simp only [hget, if_pos hlast, if_pos hsl, List.append_assoc]
        · exact Or.inr h
      · rw [if_neg hsl] at hl
        by_cases hdep : parts.length = depth
        · rw [if_pos hdep] at hl
          rcases hstep _ hl with h | h
          · rcases List.mem_append.mp h with h | h
            · exact Or.inl h
            · refine Or.inr ⟨i, le_refl i, hlt, ?_⟩
              rw [List.mem_singleton.mp h, lineFor]
              simp only [hget, if_pos hlast, if_neg hsl, if_pos hdep, List.append_assoc]
          · exact Or.inr h
        · rw [if_neg hdep] at hl
          rcases hstep _ hl with h | h
          · rcases List.mem_append.mp h with h | h
            · exact Or.inl h
            · refine Or.inr ⟨i, le_refl i, hlt, ?_⟩
              rw [List.mem_singleton.mp h, lineFor]
              simp only [hget, if_pos hlast, if_neg hsl, if_neg hdep, List.append_assoc]
          · exact Or.inr h
    · rw [if_neg hlast] at hl
      by_cases hmem : F.contains (pyRepeat indentUnit (depth + i - 1) ++ branchGlyph ++ part ++ ['/'])
      · rw [if_pos hmem] at hl
        exact hstep F hl
      · rw [if_neg hmem] at hl
        rcases hstep _ hl with h | h
        · rcases List.mem_append.mp h with h | h
          · exact Or.inl h
          · refine Or.inr ⟨i, le_refl i, hlt, ?_⟩
            rw [List.mem_singleton.mp h, lineFor]
            simp only [hget, if_neg hlast, List.append_assoc]
        · exact Or.inr h

theorem renderLoop_lines (paths : List PyStr) :
    ∀ (F : List PyStr) (l : PyStr), l ∈ (renderLoop F paths).1 →
      l ∈ F ∨ ∃ p ∈ paths, ∃ j, j < (addPathParts p).length ∧
        l = lineFor 1 (addPathParts p) j := by
  induction paths with
  | nil =>
    intro F l hl
    exact Or.inl hl
  | cons p ps ih =>
    intro F l hl
    rw [renderLoop] at hl
    rcases ih _ l hl with h | ⟨q, hq, j, hj, hline⟩
    · rcases addPathGo_lines 1 (addPathParts p) (addPathParts p) 0 F
        (List.drop_zero _).symm l h with h' | ⟨j, -, hj, hline⟩
      · exact Or.inl h'
      · exact Or.inr ⟨p, List.mem_cons_self p ps, j, hj, hline⟩
    · exact Or.inr ⟨q, List.mem_cons_of_mem p hq, j, hj, hline⟩

/-- Claim C8 (amended): every rendered entry line is
`<indent><connector><name>` with the indent unit repeated once per depth
level below the root, and the connector is the branch glyph for every entry
except single-segment paths (segment count equal to the starting depth),
which get the last-child glyph at zero indentation. -/
theorem c8_line_shape (F0 paths : List PyStr) (l : PyStr)
    (hl : l ∈ (renderLoop F0 paths).1) (hl0 : l ∉ F0) :
    ∃ i conn nm, l = pyRepeat indentUnit i ++ (conn ++ nm) ∧
      (conn = branchGlyph ∨ conn = lastGlyph) ∧
      (conn = lastGlyph → i = 0 ∧ ∃ p ∈ paths, addPathParts p = [nm]) := by
  rcases renderLoop_lines paths F0 l hl with h | ⟨p, hp, j, hj, hline⟩
  · exact absurd h hl0
  · have hidx : 1 + j - 1 = j := by omega
    rw [lineFor] at hline
    by_cases hlast : j = (addPathParts p).length - 1
    · rw [if_pos hlast] at hline
      by_cases hsl : ((addPathParts p).getD j []).getLast? = some '/'
      · rw [if_pos hsl] at hline
        refine ⟨j, branchGlyph, pyStripChar '/' ((addPathParts p).getD j []) ++ ['/'],
          by rw [hline, hidx], Or.inl rfl, ?_⟩
        intro hc
        exact absurd hc (by decide)
      · rw [if_neg hsl] at hline
        by_cases hdep : (addPathParts p).length = 1
        · rw [if_pos hdep] at hline
          have hj0 : j = 0 := by omega
          refine ⟨j, lastGlyph, (addPathParts p).getD j [],
            by rw [hline, hidx], Or.inr rfl, ?_⟩
          intro _
          refine ⟨hj0, p, hp, ?_⟩
          subst hj0
          cases hpp : addPathParts p with
          | nil => rw [hpp] at hdep; cases hdep
          | cons a t =>
            rw [hpp] at hdep
            simp only [List.length_cons] at hdep
            have ht : t = [] := List.length_eq_zero.mp (by omega)
            subst ht
            rfl
        · rw [if_neg hdep] at hline
          refine ⟨j, branchGlyph, (addPathParts p).getD j [],
            by rw [hline, hidx], Or.inl rfl, ?_⟩
          intro hc
          exact absurd hc (by decide)
    · rw [if_neg hlast] at hline
      refine ⟨j, branchGlyph, (addPathParts p).getD j [] ++ ['/'],
        by rw [hline, hidx], Or.inl rfl, ?_⟩
      intro hc
      exact absurd hc (by decide)

/-- Witness for `c8_line_shape`. -/
theorem c8_line_shape_witness :
    ∃ i conn nm, ("└── a".data : PyStr) = pyRepeat indentUnit i ++ (conn ++ nm) ∧
      (conn = branchGlyph ∨ conn = lastGlyph) ∧
      (conn = lastGlyph → i = 0 ∧ ∃ p ∈ ["a".data, "d/c".data], addPathParts p = [nm]) :=
  c8_line_shape ["r/".data] ["a".data, "d/c".data] "└── a".data (by decide) (by decide)

/-- Claim C10: `generate` removes every directory entry (trailing-separator
entry) from the flat list before rendering, and every rendered line other
than the synthetic root line is a segment line of some path in the flat list
handed to the renderer — so a directory with no non-excluded file anywhere
beneath it contributes no line, and directory lines appear only as ancestor
segments of emitted file paths. -/
theorem c10_render_only_file_paths (src : Option (List PyStr)) (root : Option FSTree)
    (rd x l : PyStr) (hx : x ∈ flatListForRender src root)
    (hl : l ∈ renderedLines src root rd) (hl0 : l ≠ rootFolderName rd) :
    x.getLast? ≠ some '/' ∧
    ∃ p ∈ flatListForRender src root, ∃ j, j < (addPathParts p).length ∧
      l = lineFor 1 (addPathParts p) j := by
  refine ⟨filteredEntries_no_slash _ x (mem_flatListForRender.mp hx), ?_⟩
  rw [renderedLines] at hl
  rcases renderLoop_lines _ _ l hl with h | h
  · exact absurd (List.mem_singleton.mp h) hl0
  · exact h

/-- Witness for `c10_render_only_file_paths`: an empty directory `d` yields no
rendered line; the only non-root line comes from the file path `f`. -/
theorem c10_render_only_file_paths_witness :
    ("f".data : PyStr).getLast? ≠ some '/' ∧
    ∃ p ∈ flatListForRender (some [])
        (some (.dir "r".data [.dir "d".data [], .file "f".data])),
      ∃ j, j < (addPathParts p).length ∧
        ("└── f".data : PyStr) = lineFor 1 (addPathParts p) j :=
  c10_render_only_file_paths (some [])
    (some (.dir "r".data [.dir "d".data [], .file "f".data]))
    "r".data "f".data "└── f".data (by decide) (by decide) (by decide)

theorem pySplit_ne_nil (p : PyStr) : pySplit p ≠ [] := by
  cases p with
  | nil => simp [pySplit, pySplitChar]
  | cons c cs =>
    rw [pySplit, pySplitChar]
    by_cases hc : c = '/'
    · simp [hc]
    · rw [if_neg hc]
      cases pySplitChar '/' cs with
      | nil => simp
      | cons s ss => simp

theorem pySplit_noslash {x : PyStr} (hx : ∀ c ∈ x, c ≠ '/') : pySplit x = [x] := by
  induction x with
  | nil => rfl
  | cons c cs ih =>
    rw [pySplit, pySplitChar, if_neg (hx c (List.mem_cons_self c cs))]
    have := ih fun a ha => hx a (List.mem_cons_of_mem c ha)
    rw [pySplit] at this
    rw [this]

theorem pySplit_append_cons {x : PyStr} (r : PyStr) (hx : ∀ c ∈ x, c ≠ '/') :
    pySplit (x ++ '/' :: r) = x :: pySplit r := by
  induction x with
  | nil =>
    rw [List.nil_append, pySplit, pySplitChar, if_pos rfl]
    rfl
  | cons c cs ih =>
    rw [List.cons_append, pySplit, pySplitChar,
      if_neg (hx c (List.mem_cons_self c cs))]
    have h := ih fun a ha => hx a (List.mem_cons_of_mem c ha)
    rw [pySplit] at h
    rw [h]

theorem pyLe_append_left (x u v : PyStr) : pyLe (x ++ u) (x ++ v) = pyLe u v := by
  induction x with
  | nil => rfl
  | cons c cs ih => simp [pyLe, lt_irrefl, ih]

/-- The rendered name the `add_path` loop would use for segment `i`:
directory segments carry a trailing separator, the final segment does not. -/
def nameAt (parts : List PyStr) (i : Nat) : PyStr :=
  let part := parts.getD i []
  if i = parts.length - 1 then
    (if part.getLast? = some '/' then pyStripChar '/' part ++ ['/'] else part)
  else part ++ ['/']

/-- The single child name a segment list can contribute under ancestor `A`. -/
def contributorOf (parts A : List PyStr) : Option PyStr :=
  if A.length < parts.length ∧ parts.take A.length = A then some (nameAt parts A.length)
  else none

/-- The single child name that path `p` can contribute under ancestor `A`. -/
def contributorName (A : List PyStr) (p : PyStr) : Option PyStr :=
  contributorOf (addPathParts p) A

/-- The rendered child names of the events sitting under ancestor `A`, in
emission order. -/
def evsFor (A : List PyStr) (evs : List REvent) : List PyStr :=
  (evs.filter fun ev => ev.ancestor == A).map REvent.rname

theorem evsFor_nil (A : List PyStr) : evsFor A [] = [] := rfl

theorem evsFor_cons_pos {A : List PyStr} {ev : REvent} {evs : List REvent}
    (h : ev.ancestor = A) : evsFor A (ev :: evs) = ev.rname :: evsFor A evs := by
  simp [evsFor, List.filter_cons, h]

theorem evsFor_cons_neg {A : List PyStr} {ev : REvent} {evs : List REvent}
    (h : ev.ancestor ≠ A) : evsFor A (ev :: evs) = evsFor A evs := by
  simp [evsFor, List.filter_cons, h]

theorem evsFor_append (A : List PyStr) (e1 e2 : List REvent) :
    evsFor A (e1 ++ e2) = evsFor A e1 ++ evsFor A e2 := by
  simp [evsFor, List.filter_append]

theorem addPathGo_events (depth : Nat) (parts : List PyStr) :
    ∀ (rest : List PyStr) (i : Nat) (F : List PyStr),
      rest = parts.drop i →
      ∀ ev ∈ (addPathGo depth parts.length parts i F rest).2,
        ∃ j, i ≤ j ∧ j < parts.length ∧ ev.ancestor = parts.take j ∧
          ev.rname = nameAt parts j := by
  intro rest
  induction rest with
  | nil =>
    intro i F _ ev hev
    cases hev
  | cons part rest2 ih =>
    intro i F hdrop ev hev
    have hget : parts.getD i [] = part := getD_of_drop hdrop.symm
    have hlt : i < parts.length := lt_of_drop hdrop.symm
    have hdrop2 : rest2 = parts.drop (i + 1) := by
      rw [← List.tail_drop, ← hdrop]
      rfl
    have hstep : ∀ (F' : List PyStr),
        ev ∈ (addPathGo depth parts.length parts (i + 1) F' rest2).2 →
        ∃ j, i ≤ j ∧ j < parts.length ∧ ev.ancestor = parts.take j ∧
          ev.rname = nameAt parts j := by
      intro F' hev'
      obtain ⟨j, hj1, hj2, hj3, hj4⟩ := ih (i + 1) F' hdrop2 ev hev'
      exact ⟨j, by omega, hj2, hj3, hj4⟩
    have hself : ∀ (nm : PyStr), nm = nameAt parts i →
        ev = (⟨parts.take i, nm⟩ : REvent) →
        ∃ j, i ≤ j ∧ j < parts.length ∧ ev.ancestor = parts.take j ∧
          ev.rname = nameAt parts j := by
      intro nm hnm hev'
      exact ⟨i, le_refl i, hlt, by rw [hev'], by rw [hev', hnm]⟩
    rw [addPathGo] at hev
    by_cases hlast : i = parts.length - 1
    · rw [if_pos hlast] at hev
      by_cases hsl : part.getLast? = some '/'
      · rw [if_pos hsl] at hev
        rcases List.mem_cons.mp hev with hev | hev
        · refine hself _ ?_ hev
          rw [nameAt]
          simp only [hget, if_pos hlast, if_pos hsl]
        · exact hstep _ hev
      · rw [if_neg hsl] at hev
        have hnm : part = nameAt parts i := by
          rw [nameAt]
          simp only [hget, if_pos hlast, if_neg hsl]
        by_cases hdep : parts.length = depth
        · rw [if_pos hdep] at hev
          rcases List.mem_cons.mp hev with hev | hev
          · exact hself _ hnm hev
          · exact hstep _ hev
        · rw [if_neg hdep] at hev
          rcases List.mem_cons.mp hev with hev | hev
          · exact hself _ hnm hev
          · exact hstep _ hev
    · rw [if_neg hlast] at hev
      by_cases hmem : F.contains (pyRepeat indentUnit (depth + i - 1) ++ branchGlyph ++ part ++ ['/'])
      · rw [if_pos hmem] at hev
        exact hstep F hev
      · rw [if_neg hmem] at hev
        rcases List.mem_cons.mp hev with hev | hev
        · refine hself _ ?_ hev
          rw [nameAt]
          simp only [hget, if_neg hlast]
        · exact hstep _ hev
theorem addPathGo_evsFor (depth : Nat) (parts A : List PyStr) :
    ∀ (rest : List PyStr) (i : Nat) (F : List PyStr),
      rest = parts.drop i →
      (evsFor A (addPathGo depth parts.length parts i F rest).2).Sublist
        (contributorOf parts A).toList := by
  intro rest
  induction rest with
  | nil =>
    intro i F _
    rw [addPathGo]
    exact List.nil_sublist _
  | cons part rest2 ih =>
    intro i F hdrop
    have hget : parts.getD i [] = part := getD_of_drop hdrop.symm
    have hlt : i < parts.length := lt_of_drop hdrop.symm
    have hdrop2 : rest2 = parts.drop (i + 1) := by
      rw [← List.tail_drop, ← hdrop]
      rfl
    have htail : ∀ F' : List PyStr,
        (evsFor A (addPathGo depth parts.length parts (i + 1) F' rest2).2).Sublist
          (contributorOf parts A).toList := fun F' => ih (i + 1) F' hdrop2
    have hcons : ∀ (nm : PyStr) (F' : List PyStr), nm = nameAt parts i →
        (evsFor A ((⟨parts.take i, nm⟩ : REvent) ::
          (addPathGo depth parts.length parts (i + 1) F' rest2).2)).Sublist
          (contributorOf parts A).toList := by
      intro nm F' hnm
      by_cases hA : parts.take i = A
      · rw [evsFor_cons_pos hA]
        have hlenA : A.length = i := by
          rw [← hA, List.length_take]
          exact min_eq_left (le_of_lt hlt)
        have hco : contributorOf parts A = some (nameAt parts A.length) := by
          rw [contributorOf, if_pos]
          refine ⟨?_, ?_⟩
          · rw [hlenA]; exact hlt
          · rw [hlenA]; exact hA
        have hempty : evsFor A
            (addPathGo depth parts.length parts (i + 1) F' rest2).2 = [] := by
          rw [evsFor]
          rw [List.filter_eq_nil_iff.mpr, List.map_nil]
          intro ev hev
          obtain ⟨j, hj1, hj2, hj3, -⟩ :=
            addPathGo_events depth parts rest2 (i + 1) F' hdrop2 ev hev
          intro hb
          have hba : ev.ancestor = A := by simpa using hb
          have hjl : j = A.length := by
            rw [hba] at hj3
            rw [hj3, List.length_take]
            exact (min_eq_left (le_of_lt hj2)).symm
          omega
        rw [hempty, hco]
        have hnm2 : nm = nameAt parts A.length := by rw [hnm, hlenA]
        rw [Option.toList_some]
        exact hnm2 ▸ List.Sublist.refl _
      · rw [evsFor_cons_neg hA]
        exact htail F'
    rw [addPathGo]
    by_cases hlast : i = parts.length - 1
    · rw [if_pos hlast]
      by_cases hsl : part.getLast? = some '/'
      · rw [if_pos hsl]
        refine hcons _ _ ?_
        rw [nameAt]
        simp only [hget, if_pos hlast, if_pos hsl]
      · rw [if_neg hsl]
        have hnm : part = nameAt parts i := by
          rw [nameAt]
          simp only [hget, if_pos hlast, if_neg hsl]
        by_cases hdep : parts.length = depth
        · rw [if_pos hdep]
          exact hcons _ _ hnm
        · rw [if_neg hdep]
          exact hcons _ _ hnm
    · rw [if_neg hlast]
      by_cases hmem : F.contains
          (pyRepeat indentUnit (depth + i - 1) ++ branchGlyph ++ part ++ ['/'])
      · rw [if_pos hmem]
        exact htail F
      · rw [if_neg hmem]
        refine hcons _ _ ?_
        rw [nameAt]
        simp only [hget, if_neg hlast]

theorem pySplit_mem_noslash (p : PyStr) :
    ∀ s ∈ pySplit p, ∀ c ∈ s, c ≠ '/' := by
  induction p with
  | nil =>
    intro s hs
    rw [List.mem_singleton.mp hs]
    intro c hc
    cases hc
  | cons a as ih =>
    intro s hs c hc
    rw [pySplit, pySplitChar] at hs
    by_cases ha : a = '/'
    · rw [if_pos ha] at hs
      rcases List.mem_cons.mp hs with hs | hs
      · subst hs; cases hc
      · exact ih s hs c hc
    · rw [if_neg ha] at hs
      cases hsp : pySplitChar '/' as with
      | nil => exact absurd hsp (pySplit_ne_nil as)
      | cons s0 ss =>
        rw [hsp] at hs
        rcases List.mem_cons.mp hs with hs | hs
        · subst hs
          rcases List.mem_cons.mp hc with hc | hc
          · subst hc; exact ha
          · exact ih s0 (by rw [pySplit, hsp]; exact List.mem_cons_self s0 ss) c hc
        · exact ih s (by rw [pySplit, hsp]; exact List.mem_cons_of_mem s0 hs) c hc

theorem first_slash_decomp {p : PyStr} (h : '/' ∈ p) :
    p = p.takeWhile (fun c => c != '/') ++
      '/' :: (p.dropWhile (fun c => c != '/')).tail := by
  induction p with
  | nil => cases h
  | cons c cs ih =>
    by_cases hc : c = '/'
    · subst hc
      rw [List.takeWhile_cons, List.dropWhile_cons]
      simp
    · have hcs : '/' ∈ cs := by
        rcases List.mem_cons.mp h with h | h
        · exact absurd h.symm hc
        · exact h
      rw [List.takeWhile_cons, List.dropWhile_cons]
      have hbc : (c != '/') = true := by simpa using hc
      rw [if_pos hbc, if_pos hbc, List.cons_append]
      exact congrArg (c :: ·) (ih hcs)

/-- The rendered name of the first segment of a path: the leading segment,
with a separator mark exactly when further segments follow. -/
def headName (p : PyStr) : PyStr :=
  p.takeWhile (fun c => c != '/') ++ (if '/' ∈ p then ['/'] else [])

theorem nameAt_pySplit_zero (p : PyStr) : nameAt (pySplit p) 0 = headName p := by
  by_cases hs : '/' ∈ p
  · have hdec := first_slash_decomp hs
    have hx : ∀ c ∈ p.takeWhile (fun c => c != '/'), c ≠ '/' := by
      intro c hc
      simpa using List.mem_takeWhile_imp hc
    have hsplit : pySplit p = p.takeWhile (fun c => c != '/') ::
        pySplit ((p.dropWhile (fun c => c != '/')).tail) := by
      conv_lhs => rw [hdec]
      exact pySplit_append_cons _ hx
    rw [hsplit, nameAt, headName, if_pos hs]
    have hlen : (p.takeWhile (fun c => c != '/') ::
        pySplit ((p.dropWhile (fun c => c != '/')).tail)).length =
        1 + (pySplit ((p.dropWhile (fun c => c != '/')).tail)).length := by
      simp [Nat.add_comm]
    have hne : pySplit ((p.dropWhile (fun c => c != '/')).tail) ≠ [] :=
      pySplit_ne_nil _
    have hlpos : 0 < (pySplit ((p.dropWhile (fun c => c != '/')).tail)).length :=
      List.length_pos.mpr hne
    rw [if_neg]
    · rfl
    · rw [hlen]
      omega
  · have hx : ∀ c ∈ p, c ≠ '/' := fun c hc hcc => hs (hcc ▸ hc)
    have hgl : p.getLast? ≠ some '/' := fun hc =>
      hx '/' (List.mem_of_mem_getLast? (by rw [hc]; rfl)) rfl
    have h1 : nameAt [p] 0 = p := by
      rw [nameAt]
      simp [hgl]
    rw [pySplit_noslash hx, headName, if_neg hs, h1, List.append_nil,
      List.takeWhile_eq_self_iff.mpr (fun c hc => by simpa using hx c hc)]

theorem headName_slash (xs : PyStr) : headName ('/' :: xs) = ['/'] := by
  rw [headName, List.takeWhile_cons]
  simp

theorem headName_cons {c : Char} (cs : PyStr) (hc : c ≠ '/') :
    headName (c :: cs) = c :: headName cs := by
  rw [headName, headName, List.takeWhile_cons, if_pos (by simpa using hc)]
  by_cases hmem : '/' ∈ cs
  · rw [if_pos hmem, if_pos (List.mem_cons_of_mem c hmem), List.cons_append]
  · rw [if_neg hmem, if_neg ?hnc, List.cons_append]
    case hnc =>
      intro hcon
      rcases List.mem_cons.mp hcon with hcon | hcon
      · exact hc hcon.symm
      · exact hmem hcon

theorem headName_mono : ∀ (p q : PyStr), pyLe p q = true →
    pyLe (headName p) (headName q) = true := by
  intro p
  induction p with
  | nil =>
    intro q h
    rfl
  | cons c cs ih =>
    intro q h
    cases q with
    | nil => exact absurd h (by simp [pyLe])
    | cons d ds =>
      by_cases hc : c = '/'
      · subst hc
        by_cases hd : d = '/'
        · subst hd
          rw [headName_slash, headName_slash]
          exact pyLe_refl _
        · rcases lt_trichotomy '/' d with hlt | heq | hgt
          · rw [headName_slash, headName_cons ds hd]
            simp [pyLe, hlt]
          · exact absurd heq.symm hd
          · exfalso
            revert h
            simp [pyLe, hgt, lt_asymm hgt]
      · by_cases hd : d = '/'
        · subst hd
          rcases lt_trichotomy c '/' with hlt | heq | hgt
          · rw [headName_cons cs hc, headName_slash]
            simp [pyLe, hlt]
          · exact absurd heq hc
          · exfalso
            revert h
            simp [pyLe, hgt, lt_asymm hgt]
        · rcases lt_trichotomy c d with hlt | heq | hgt
          · rw [headName_cons cs hc, headName_cons ds hd]
            simp [pyLe, hlt]
          · subst heq
            have hcs : pyLe cs ds = true := by
              revert h
              simp [pyLe, lt_irrefl]
            rw [headName_cons cs hc, headName_cons ds hd]
            have hred : pyLe (c :: headName cs) (c :: headName ds) =
                pyLe (headName cs) (headName ds) := by
              simp [pyLe, lt_irrefl]
            rw [hred]
            exact ih ds hcs
          · exfalso
            revert h
            simp [pyLe, hgt, lt_asymm hgt]

theorem nameAt_cons {x : PyStr} {ps : List PyStr} (hps : ps ≠ []) (i : Nat) :
    nameAt (x :: ps) (i + 1) = nameAt ps i := by
  have hl : 0 < ps.length := List.length_pos.mpr hps
  have hiff : (i + 1 = (x :: ps).length - 1) ↔ (i = ps.length - 1) := by
    simp only [List.length_cons]
    omega
  rw [nameAt, nameAt]
  simp only [List.getD_cons_succ]
  by_cases h : i = ps.length - 1
  · rw [if_pos (hiff.mpr h), if_pos h]
  · rw [if_neg (fun hcon => h (hiff.mp hcon)), if_neg h]

theorem pySplit_cons_decomp {p a : PyStr} {rest : List PyStr}
    (h : pySplit p = a :: rest) (hne : rest ≠ []) :
    ∃ p', p = a ++ '/' :: p' ∧ pySplit p' = rest ∧ ∀ c ∈ a, c ≠ '/' := by
  by_cases hs : '/' ∈ p
  · have hdec := first_slash_decomp hs
    have hx : ∀ c ∈ p.takeWhile (fun c => c != '/'), c ≠ '/' := by
      intro c hc
      simpa using List.mem_takeWhile_imp hc
    have hsplit : pySplit p = p.takeWhile (fun c => c != '/') ::
        pySplit ((p.dropWhile (fun c => c != '/')).tail) := by
      conv_lhs => rw [hdec]
      exact pySplit_append_cons _ hx
    rw [hsplit] at h
    obtain ⟨h1, h2⟩ := List.cons.inj h
    refine ⟨(p.dropWhile (fun c => c != '/')).tail, ?_, h2, h1 ▸ hx⟩
    rw [← h1]
    exact hdec
  · have hx : ∀ c ∈ p, c ≠ '/' := fun c hc hcc => hs (hcc ▸ hc)
    rw [pySplit_noslash hx] at h
    obtain ⟨-, h2⟩ := List.cons.inj h
    exact absurd h2.symm hne

theorem contributorOf_mono : ∀ (A : List PyStr) (p q : PyStr),
    pyLe p q = true →
    ∀ n₁ n₂, contributorOf (pySplit p) A = some n₁ →
      contributorOf (pySplit q) A = some n₂ → pyLe n₁ n₂ = true := by
  intro A
  induction A with
  | nil =>
    intro p q hpq n₁ n₂ h₁ h₂
    rw [contributorOf, if_pos ⟨List.length_pos.mpr (pySplit_ne_nil p),
      List.take_zero _⟩] at h₁
    rw [contributorOf, if_pos ⟨List.length_pos.mpr (pySplit_ne_nil q),
      List.take_zero _⟩] at h₂
    have e₁ : n₁ = nameAt (pySplit p) 0 := (Option.some.inj h₁).symm
    have e₂ : n₂ = nameAt (pySplit q) 0 := (Option.some.inj h₂).symm
    rw [e₁, e₂, nameAt_pySplit_zero, nameAt_pySplit_zero]
    exact headName_mono p q hpq
  | cons a A' ih =>
    intro p q hpq n₁ n₂ h₁ h₂
    rw [contributorOf] at h₁ h₂
    by_cases hc₁ : (a :: A').length < (pySplit p).length ∧
        (pySplit p).take (a :: A').length = a :: A'
    · by_cases hc₂ : (a :: A').length < (pySplit q).length ∧
          (pySplit q).take (a :: A').length = a :: A'
      · rw [if_pos hc₁] at h₁
        rw [if_pos hc₂] at h₂
        obtain ⟨hlen₁, htake₁⟩ := hc₁
        obtain ⟨hlen₂, htake₂⟩ := hc₂
        cases hsp : pySplit p with
        | nil => exact absurd hsp (pySplit_ne_nil p)
        | cons a₀ restp =>
          cases hsq : pySplit q with
          | nil => exact absurd hsq (pySplit_ne_nil q)
          | cons b₀ restq =>
            rw [hsp] at htake₁ hlen₁ h₁
            rw [hsq] at htake₂ hlen₂ h₂
            simp only [List.length_cons, List.take_succ_cons] at htake₁ htake₂ hlen₁ hlen₂
            obtain ⟨ha₀, htp⟩ := List.cons.inj htake₁
            obtain ⟨hb₀, htq⟩ := List.cons.inj htake₂
            have hrestp : restp ≠ [] := by
              intro hcon
              rw [hcon] at hlen₁
              simp at hlen₁
            have hrestq : restq ≠ [] := by
              intro hcon
              rw [hcon] at hlen₂
              simp at hlen₂
            obtain ⟨p', hpdec, hpsplit, -⟩ :=
              pySplit_cons_decomp (ha₀ ▸ hsp) hrestp
            obtain ⟨q', hqdec, hqsplit, -⟩ :=
              pySplit_cons_decomp (hb₀ ▸ hsq) hrestq
            have hpq' : pyLe p' q' = true := by
              have hp2 : p = (a ++ ['/']) ++ p' := by
                rw [hpdec, List.append_assoc]
                rfl
              have hq2 : q = (a ++ ['/']) ++ q' := by
                rw [hqdec, List.append_assoc]
                rfl
              rw [hp2, hq2, pyLe_append_left] at hpq
              exact hpq
            have e₁ : n₁ = nameAt (pySplit p') A'.length := by
              rw [hpsplit]
              have h' := Option.some.inj h₁
              simp only [List.length_cons] at h'
              rw [← h', nameAt_cons hrestp]
            have e₂ : n₂ = nameAt (pySplit q') A'.length := by
              rw [hqsplit]
              have h' := Option.some.inj h₂
              simp only [List.length_cons] at h'
              rw [← h', nameAt_cons hrestq]
            refine ih p' q' hpq' n₁ n₂ ?_ ?_
            · rw [contributorOf, if_pos ⟨by rw [hpsplit]; omega, by rw [hpsplit]; exact htp⟩]
              rw [e₁]
            · rw [contributorOf, if_pos ⟨by rw [hqsplit]; omega, by rw [hqsplit]; exact htq⟩]
              rw [e₂]
      · rw [if_neg hc₂] at h₂
        cases h₂
    · rw [if_neg hc₁] at h₁
      cases h₁

theorem contributorName_mono {A : List PyStr} {p q n₁ n₂ : PyStr}
    (hpq : pyLe p q = true) (hp : pyStripChar '/' p = p) (hq : pyStripChar '/' q = q)
    (h₁ : contributorName A p = some n₁) (h₂ : contributorName A q = some n₂) :
    pyLe n₁ n₂ = true := by
  rw [contributorName, addPathParts, pySplit, hp] at h₁
  rw [contributorName, addPathParts, pySplit, hq] at h₂
  exact contributorOf_mono A p q hpq n₁ n₂ h₁ h₂

theorem pairwise_filterMap_contributors (A : List PyStr) :
    ∀ paths : List PyStr, List.Pairwise PyLE paths →
      (∀ p ∈ paths, pyStripChar '/' p = p) →
      List.Pairwise PyLE (paths.filterMap (contributorName A)) := by
  intro paths
  induction paths with
  | nil =>
    intro _ _
    exact List.Pairwise.nil
  | cons p ps ih =>
    intro hs hstrip
    obtain ⟨hhead, htail⟩ := List.pairwise_cons.mp hs
    rw [List.filterMap_cons]
    cases hcp : contributorName A p with
    | none => exact ih htail fun x hx => hstrip x (List.mem_cons_of_mem p hx)
    | some n =>
      refine List.pairwise_cons.mpr ⟨?_, ih htail fun x hx => hstrip x (List.mem_cons_of_mem p hx)⟩
      intro n' hn'
      obtain ⟨q, hq, hcq⟩ := List.mem_filterMap.mp hn'
      exact contributorName_mono (hhead q hq) (hstrip p (List.mem_cons_self p ps))
        (hstrip q (List.mem_cons_of_mem p hq)) hcp hcq

theorem renderLoop_evsFor (A : List PyStr) : ∀ (paths F : List PyStr),
    (evsFor A (renderLoop F paths).2).Sublist (paths.filterMap (contributorName A)) := by
  intro paths
  induction paths with
  | nil =>
    intro F
    exact List.nil_sublist _
  | cons p ps ih =>
    intro F
    have hshape : (renderLoop F (p :: ps)).2 =
        (addPathFull F p 1).2 ++ (renderLoop (addPathFull F p 1).1 ps).2 := rfl
    rw [hshape, evsFor_append]
    have h1 : (evsFor A (addPathFull F p 1).2).Sublist (contributorName A p).toList :=
      addPathGo_evsFor 1 (addPathParts p) A (addPathParts p) 0 F (List.drop_zero _).symm
    have h2 := ih (addPathFull F p 1).1
    rw [List.filterMap_cons]
    cases hcp : contributorName A p with
    | none =>
      rw [hcp] at h1
      rw [List.sublist_nil.mp h1, List.nil_append]
      exact h2
    | some n =>
      rw [hcp] at h1
      exact List.Sublist.append h1 h2

theorem pyStripChar_eq_self {p : PyStr} (h1 : p.head? ≠ some '/')
    (h2 : p.getLast? ≠ some '/') : pyStripChar '/' p = p := by
  rw [pyStripChar]
  have hd1 : p.dropWhile (· == '/') = p := by
    cases p with
    | nil => rfl
    | cons c cs =>
      rw [List.dropWhile_cons, if_neg]
      intro hcc
      exact h1 (by rw [List.head?_cons, beq_iff_eq.mp hcc])
  rw [hd1]
  have hd2 : p.reverse.dropWhile (· == '/') = p.reverse := by
    cases hr : p.reverse with
    | nil => rfl
    | cons c cs =>
      rw [List.dropWhile_cons, if_neg]
      intro hcc
      apply h2
      rw [← List.head?_reverse, hr, List.head?_cons, beq_iff_eq.mp hcc]
  rw [hd2, List.reverse_reverse]

/-- Claim C7: every flat path list `generate` hands to the renderer consists
of separator-trimmed paths (second conjunct), and for every sorted list of
such paths the renderer emits the child names under every ancestor in sorted
order: the appended-line events filtered to any ancestor, in emission order,
are pairwise ordered by the same lexicographic order as the input. -/
theorem c7_renderer_preserves_order (F0 paths A : List PyStr)
    (src : Option (List PyStr)) (root : Option FSTree) (p : PyStr)
    (hsorted : List.Pairwise PyLE paths)
    (hstrip : ∀ x ∈ paths, pyStripChar '/' x = x)
    (hwf : wfRoot root = true) (hp : p ∈ flatListForRender src root) :
    List.Pairwise PyLE (evsFor A (renderEvents F0 paths)) ∧
    pyStripChar '/' p = p := by
  constructor
  · exact List.Pairwise.sublist (renderLoop_evsFor A paths F0)
      (pairwise_filterMap_contributors A paths hsorted hstrip)
  · have hmem := mem_flatListForRender.mp hp
    have hinv := (structure_entry_inv _ root p hwf (List.mem_of_mem_filter hmem)).2
    rw [AnchorOK, if_pos rfl] at hinv
    exact pyStripChar_eq_self hinv.2 (filteredEntries_no_slash _ p hmem)

/-- Witness for `c7_renderer_preserves_order`. -/
theorem c7_renderer_preserves_order_witness :
    List.Pairwise PyLE
      (evsFor [] (renderEvents ["r/".data] ["a.txt".data, "d/b.txt".data])) ∧
    pyStripChar '/' "a.txt".data = "a.txt".data :=
  c7_renderer_preserves_order ["r/".data] ["a.txt".data, "d/b.txt".data] []
    (some [])
    (some (.dir "r".data [.file "a.txt".data, .dir "d".data [.file "b.txt".data]]))
    "a.txt".data (by decide) (by decide) (by decide) (by decide)
